import Mathlib

/-!
dmux: front-matter parsing, context assembly and image promotion.

A shallow embedding of `build.go` and `docker.go`.

Conventions of the embedding

* Go `[]byte` is `List UInt8`, Go `string` is `String`.
* A Go `error` is `Option Error` (`none` is `nil`); `errors.Wrap` keeps the
  behaviour of `github.com/pkg/errors`: wrapping `nil` gives `nil`.
* Everything the program reaches outside the repository (the afero file
  system, `os`, `os/user`, the YAML decoder, the tar writer, git clone and the
  Docker daemon) is a field of `World` or `Daemon`: every theorem holds for
  every behaviour of these collaborators unless a hypothesis says otherwise.
* A Go map is an association list in the order `range` visits it.
-/

set_option autoImplicit false

namespace Dmux

/-! ## Errors -/

/-- Go byte slices. -/
abbrev Bytes := List UInt8

/-- A non-nil Go `error`, identified by the text `Error()` returns. -/
structure Error where
  msg : String
deriving DecidableEq, Repr

/-- The function `errors.New` of pkg/errors. -/
def errors.New (message : String) : Error := ⟨message⟩

/-- The error `errors.Wrap(err, message)` for a non-nil `err`: the message is
put in front of the cause, separated by a colon and a blank. -/
def Error.wrap (e : Error) (message : String) : Error :=
  ⟨message ++ ": " ++ e.msg⟩

/-- The function `errors.Wrap` of pkg/errors: `nil` stays `nil`. -/
def errors.Wrap (err : Option Error) (message : String) : Option Error :=
  match err with
  | none => none
  | some e => some (e.wrap message)

/-- Substitution of the first `%s` or `%v` verb of a format string. -/
def sprintfChars : List Char → List Char → List Char
  | [], _ => []
  | '%' :: 's' :: rest, arg => arg ++ rest
  | '%' :: 'v' :: rest, arg => arg ++ rest
  | c :: rest, arg => c :: sprintfChars rest arg

/-- The call `fmt.Sprintf(format, arg)` for the formats of this program, which
hold one verb; `arg` is the rendering of the argument. -/
def fmt.Sprintf (format arg : String) : String :=
  ⟨sprintfChars format.data arg.data⟩

/-- The error `errors.Wrapf(err, format, arg)` for a non-nil `err`. -/
def Error.wrapf (e : Error) (format arg : String) : Error :=
  e.wrap (fmt.Sprintf format arg)

/-- How a call ends when it does not return normally: with a Go error, with a
run-time panic, or, for the recursive walk of a repository tree only, with the
recursion bound of the embedding exhausted (no Go result at all). -/
inductive Abort where
  | error (e : Error)
  | panic (reason : String)
  | outOfFuel
deriving DecidableEq, Repr

/-! ## build.go -/

/-- The front-matter delimiter `---` as bytes (`YAMLDelim`). -/
def YAMLDelim : Bytes := [45, 45, 45]

/-- The UNIX line ending, the byte of the rune `LineEnd`. -/
def LineEnd : UInt8 := 10

def ErrInvalidFile : String := "Please pass a valid Dockerfile"
def ErrFileRead : String := "Can't read file"
def ErrScanningFile : String := "Error scanning file"
def ErrDecodeFrontMatter : String := "Error decode frontmatter"
def ErrReadParseFile : String := "Can't read and parse file"
def ErrEmptyFrontMatter : String := "Error no frontmatter content"
def ErrEmptyDockerfile : String := "Error no Dockerfile content"
def ErrNewDockerBuilder : String := "Error creating a new DockerBuilder"
def ErrDockerBuild : String := "Error build Docker images"

/-- The build matrix decoded from the front matter. `Git` lists the pairs
repository, reference of the Go map in iteration order. -/
structure BuildMatrix where
  Files : List String
  Git : List (String × String)
deriving DecidableEq, Repr

/-- An open `afero.File` as `bufio.Scanner` sees it: the tokens successive
`Scan` calls yield (`scanner.Bytes()`), and the value of `scanner.Err()` once
`Scan` has returned false. -/
structure File where
  lines : List Bytes
  err : Option Error
deriving DecidableEq, Repr

/-- What `os.FileInfo` tells this program. -/
structure FileInfo where
  Name : String
  IsDir : Bool
  Size : Nat
deriving DecidableEq, Repr

/-- The application builder. -/
structure Builder where
  buildMatrix : Option BuildMatrix
  file : File
  frontMatter : Bytes
  dockerfile : Bytes
deriving DecidableEq, Repr

/-- The zero value `&Builder{}`. -/
def Builder.zero : Builder :=
  { buildMatrix := none, file := ⟨[], none⟩, frontMatter := [], dockerfile := [] }

/-- A fresh builder reading `file`, as `newBuilderFile` of the tests builds
it: `&Builder{file: file}`. -/
def Builder.fresh (file : File) : Builder :=
  { Builder.zero with file := file }

/-- The variables the scanning loop of `parseFile` updates. -/
structure ScanState where
  writeFrontMatter : Bool
  frontMatter : Bytes
  dockerfile : Bytes
deriving DecidableEq, Repr

/-- One iteration of the loop `for scanner.Scan()` of `parseFile`. -/
def parseLine (s : ScanState) (line : Bytes) : ScanState :=
  if line = YAMLDelim then
    if !s.writeFrontMatter then
      { s with writeFrontMatter := true }
    else
      { s with writeFrontMatter := false }
  else
    let s1 : ScanState :=
      if s.writeFrontMatter then
        { s with frontMatter := s.frontMatter ++ line ++ [LineEnd] }
      else s
    if !s1.writeFrontMatter then
      { s1 with dockerfile := s1.dockerfile ++ line ++ [LineEnd] }
    else s1

/-- The whole loop `for scanner.Scan()` of `parseFile`. -/
def scanLoop (s : ScanState) (lines : List Bytes) : ScanState :=
  lines.foldl parseLine s

/-- The method `Builder.parseFile`: the builder after the call and the error
returned. -/
def Builder.parseFile (b : Builder) : Builder × Option Error :=
  let s := scanLoop ⟨false, b.frontMatter, b.dockerfile⟩ b.file.lines
  let b1 : Builder := { b with frontMatter := s.frontMatter, dockerfile := s.dockerfile }
  match b.file.err with
  | some err => (b1, errors.Wrap (some err) ErrScanningFile)
  | none =>
    if b1.frontMatter.length = 0 then
      (b1, some (errors.New ErrEmptyFrontMatter))
    else if b1.dockerfile.length = 0 then
      (b1, some (errors.New ErrEmptyDockerfile))
    else
      (b1, none)

/-- The bytes the loop of `parseFile` writes for a list of collected lines:
each line followed by `LineEnd`. -/
def withLineEnds : List Bytes → Bytes
  | [] => []
  | line :: rest => line ++ [LineEnd] ++ withLineEnds rest

/-- The lines of the input at which the loop of `parseFile` takes the branch
that writes to the front-matter buffer, when it starts with
`writeFrontMatter = wfm`. -/
def frontMatterLines : Bool → List Bytes → List Bytes
  | _, [] => []
  | wfm, line :: rest =>
    if line = YAMLDelim then frontMatterLines (!wfm) rest
    else if wfm then line :: frontMatterLines wfm rest
    else frontMatterLines wfm rest

/-- The lines of the input at which the loop of `parseFile` takes the branch
that writes to the Dockerfile buffer. -/
def dockerfileLines : Bool → List Bytes → List Bytes
  | _, [] => []
  | wfm, line :: rest =>
    if line = YAMLDelim then dockerfileLines (!wfm) rest
    else if wfm then dockerfileLines wfm rest
    else line :: dockerfileLines wfm rest

/-! ## Go standard library: strings and path/filepath (UNIX) -/

/-- The pieces of `s` between occurrences of the one-byte separator `sep`:
`strings.Split` on the runes of the string. The result is never empty. -/
def splitChars (sep : Char) : List Char → List (List Char)
  | [] => [[]]
  | c :: cs =>
    if c = sep then [] :: splitChars sep cs
    else
      match splitChars sep cs with
      | [] => [[c]]
      | p :: ps => (c :: p) :: ps

/-- The call `strings.Split(s, sep)` for a separator of one ASCII byte. -/
def strings.Split (s : String) (sep : Char) : List String :=
  (splitChars sep s.data).map String.mk

/-- The call `strings.HasSuffix(s, suffix)`. -/
def strings.HasSuffix (s suffix : String) : Bool :=
  suffix.data.isSuffixOf s.data

/-- The call `strings.TrimSuffix(s, suffix)`. -/
def strings.TrimSuffix (s suffix : String) : String :=
  if strings.HasSuffix s suffix then
    ⟨s.data.take (s.data.length - suffix.data.length)⟩
  else s

/-- The function `unicode.ToLower`: ASCII runes are handled in place, every
other rune goes through the Unicode case tables of the Go runtime, which are
the parameter `table`. -/
def unicode.ToLower (table : Char → Char) (r : Char) : Char :=
  if r.toNat ≤ 127 then
    if 65 ≤ r.toNat ∧ r.toNat ≤ 90 then Char.ofNat (r.toNat + 32) else r
  else table r

/-- The call `strings.ToLower(s)`. -/
def strings.ToLower (table : Char → Char) (s : String) : String :=
  ⟨s.data.map (unicode.ToLower table)⟩

/-- The path element `..`. -/
def dotdot : List Char := ['.', '.']

/-- The elements of a path that `filepath.Clean` keeps for processing: the
pieces between slashes that are neither empty nor `.`. -/
def pathElems (p : List Char) : List (List Char) :=
  (splitChars '/' p).filter (fun e => e ≠ [] ∧ e ≠ ['.'])

/-- One element of the path processed by `filepath.Clean`. The elements
written so far are held last first. A `..` removes the element before it,
stays when the path is relative and nothing is left to remove, and is dropped
at the root. -/
def cleanStep (rooted : Bool) (out : List (List Char)) (e : List Char) :
    List (List Char) :=
  if e = dotdot then
    match out with
    | [] => if rooted then [] else [e]
    | top :: rest =>
      if top = dotdot then (if rooted then out else e :: out) else rest
  else e :: out

/-- The elements of the cleaned path, first to last. -/
def cleanElems (rooted : Bool) (p : List Char) : List (List Char) :=
  ((pathElems p).foldl (cleanStep rooted) []).reverse

/-- The elements of a path joined by slashes. -/
def joinElems : List (List Char) → List Char
  | [] => []
  | [e] => e
  | e :: es => e ++ '/' :: joinElems es

/-- The function `filepath.Clean` on the runes of a UNIX path. -/
def cleanChars (p : List Char) : List Char :=
  match p with
  | [] => ['.']
  | c :: _ =>
    let rooted : Bool := c = '/'
    let body := joinElems (cleanElems rooted p)
    if rooted then '/' :: body
    else if body = [] then ['.'] else body

/-- The function `filepath.Clean` of Go for UNIX paths. -/
def filepath.Clean (path : String) : String := ⟨cleanChars path.data⟩

/-- The function `filepath.Join` of Go for UNIX paths: leading empty elements
are skipped, the rest is joined by slashes and cleaned. -/
def filepath.Join (elem : List String) : String :=
  match elem.dropWhile (fun e => e = "") with
  | [] => ""
  | es => filepath.Clean ⟨joinElems (es.map String.data)⟩

/-- The runes of `filepath.Base`: trailing slashes are stripped, then the
last element is taken. -/
def baseChars (p : List Char) : List Char :=
  match p with
  | [] => ['.']
  | _ =>
    let stripped := (p.reverse.dropWhile (fun c => c = '/')).reverse
    let last := (stripped.reverse.takeWhile (fun c => c ≠ '/')).reverse
    if last = [] then ['/'] else last

/-- The function `filepath.Base` of Go for UNIX paths. -/
def filepath.Base (path : String) : String := ⟨baseChars path.data⟩

/-! ## docker.go: data -/

def Dockerfile : String := "Dockerfile"
def ErrAddDockerfile : String := "Error adding Dockerfile"
def ErrMappingFilesystem : String := "Error mapping filesystem"
def ErrClosingContext : String := "Error adding context"
def ErrGetRepository : String := "Error getting repository at reference"
def ErrFileSystemEncodingToDockerContext : String :=
  "Error encoding file system into Docker context"
def ErrReadFile : String := "Error reading file %s"
def ErrBuild : String := "Error building Docker image"
def ErrListImage : String := "Error listing images"
def ErrTagImage : String := "Error tagging image"
def ErrRemoveImage : String := "Error removing image"
def ErrCreateClient : String := "Error creating a new Docker client"
def ErrTarHeaderWrite : String := "Error writing file tar header: %v"
def ErrTarFileWrite : String := "Error writing tar file"
def ErrTarClose : String := "Error closing tar buffer"
def ErrOutputStream : String := "Error displaying Docker output stream"
def ErrFileStat : String := "Error file stat %s"
def ErrReadDir : String := "Error reading director %s"
def ErrAddFile : String := "Error adding file"
def ErrUserDir : String := "Error getting user directory"

/-- The fields of `tar.Header` this program sets or reads. -/
structure TarHeader where
  Name : String
  Mode : Nat
  Size : Nat
  Typeflag : UInt8
deriving DecidableEq, Repr

/-- The type flag `tar.TypeReg`, the byte of the digit zero. -/
def tar.TypeReg : UInt8 := 48

/-- One entry of the archive: a header and the bytes written after it. -/
structure ArchiveEntry where
  header : TarHeader
  content : Bytes
deriving DecidableEq, Repr

/-- The Docker context: the entries written to the tar writer so far, in
order, and whether the writer has been closed. -/
structure Context where
  entries : List ArchiveEntry
  closed : Bool
deriving DecidableEq, Repr

/-- A file opened on a billy file system: its bytes and what `Close`
returns. -/
structure BillyFile where
  content : Bytes
  closeErr : Option Error
deriving DecidableEq, Repr

/-- A `billy.Filesystem` as `AddFilesystem` uses it. -/
structure BillyFS where
  Stat : String → Except Error FileInfo
  ReadDir : String → Except Error (List FileInfo)
  Open : String → Except Error BillyFile

/-- The file-system half of a `GitStore`; the reference storage is only
handed to git clone. -/
structure GitStore where
  fs : BillyFS

/-- The docker builder. `gitStore` lists the map in iteration order. -/
structure DockerBuilder where
  tags : List String
  gitStore : List (String × GitStore)
  context : Option Context

/-- The fields of `user.User` this program reads. -/
structure User where
  HomeDir : String
deriving DecidableEq, Repr

/-- An image summary returned by the daemon: its identifier and its labels,
a Go map. -/
structure Image where
  ID : String
  Labels : List (String × String)
deriving DecidableEq, Repr

/-- The map access `image.Labels[key]`: the zero value when the key is
absent. -/
def Image.label (image : Image) (key : String) : String :=
  (image.Labels.lookup key).getD ""

/-- A request sent to the Docker daemon. -/
inductive DaemonCall where
  | ImageBuild (context : Context)
  | ImageList (filters : List (String × String))
  | ImageTag (source ref : String)
  | ImageRemove (imageID : String)
deriving DecidableEq, Repr

/-- The Docker daemon and its client: what each request answers, given the
requests made before it. -/
structure Daemon where
  NewClient : Option Error
  ImageBuild : List DaemonCall → Context → Option Error
  DisplayJSONMessagesToStream : List DaemonCall → Option Error
  ImageList : List DaemonCall → List (String × String) → Except Error (List Image)
  ImageTag : List DaemonCall → String → String → Option Error
  ImageRemove : List DaemonCall → String → Option Error

/-- The collaborators of `build.go` and of context assembly in `docker.go`
that live outside the repository. -/
structure World where
  /-- The standard input `os.Stdin` as a scanner sees it. -/
  Stdin : File
  /-- The call `fs.Stat` on the package-level afero file system. -/
  fsStat : String → Except Error FileInfo
  /-- The call `fs.Open` on the package-level afero file system. -/
  fsOpen : String → Except Error File
  /-- The call `yaml.Unmarshal(frontMatter, &builder.buildMatrix)`: an error,
  or the value the pointer holds afterwards (possibly still nil). -/
  yamlUnmarshal : Bytes → Except Error (Option BuildMatrix)
  /-- The call `afero.ReadFile(fs, path)`. -/
  ReadFile : String → Except Error Bytes
  /-- The call `os.Stat`. -/
  osStat : String → Except Error FileInfo
  /-- The call `ioutil.ReadDir`. -/
  ioReadDir : String → Except Error (List FileInfo)
  /-- The user `user.Current()` returns, nil when it fails. -/
  userCurrent : Option User
  /-- The Unicode case tables behind `unicode.ToLower`. -/
  lowerTable : Char → Char
  /-- A new in-memory file system, `memfs.New()`. -/
  memfsNew : BillyFS
  /-- The call `git.Clone` into a store for a URL and a reference name: the
  file system of the store afterwards and the error returned. -/
  gitClone : BillyFS → String → String → BillyFS × Option Error
  /-- The call `tar.FileInfoHeader(info, path)`. -/
  tarFileInfoHeader : FileInfo → String → Except Error TarHeader
  /-- The call `tw.WriteHeader` on a writer that holds the given context. -/
  tarWriteHeader : Context → TarHeader → Option Error
  /-- Writing content after a header with `tw.Write` or `io.CopyN`. -/
  tarWrite : Context → TarHeader → Bytes → Option Error
  /-- The call `tw.Close`. -/
  tarClose : Context → Option Error
  /-- The rendering of a header by the verb `%v`. -/
  showHeader : TarHeader → String

/-! ## build.go: NewBuilder -/

/-- The constructor `NewBuilder`: the pair of results, each of which may be
nil. -/
def NewBuilder (w : World) (filepath : String) : Option Builder × Option Error :=
  let builder := Builder.zero
  let opened : Except (Option Builder × Option Error) Builder :=
    if filepath = "" then
      .ok { builder with file := w.Stdin }
    else
      match w.fsStat filepath with
      | .error err => .error (none, errors.Wrap (some err) ErrInvalidFile)
      | .ok fd =>
        if fd.IsDir then
          .error (none, errors.Wrap none ErrInvalidFile)
        else
          match w.fsOpen filepath with
          | .error err => .error (none, errors.Wrap (some err) ErrFileRead)
          | .ok file => .ok { builder with file := file }
  match opened with
  | .error r => r
  | .ok builder =>
    match builder.parseFile with
    | (_, some err) => (none, errors.Wrap (some err) ErrReadParseFile)
    | (builder, none) =>
      match w.yamlUnmarshal builder.frontMatter with
      | .error err => (none, errors.Wrap (some err) ErrDecodeFrontMatter)
      | .ok matrix => (some { builder with buildMatrix := matrix }, none)

/-! ## docker.go: the context -/

/-- The function `folderFromGitURL`. -/
def folderFromGitURL (table : Char → Char) (url : String) : String :=
  let path := strings.Split url '/'
  strings.ToLower table (strings.TrimSuffix (path.getLastD "") ".git")

/-- The constructor `NewContext`. -/
def NewContext : Context := { entries := [], closed := false }

/-- The method `Context.AddFile`. The entry is recorded once its header and
its content are written. -/
def Context.AddFile (w : World) (c : Context) (name : String) (content : Bytes) :
    Except Error Context :=
  let header : TarHeader :=
    { Name := name, Mode := 0o600, Size := content.length, Typeflag := 0 }
  match w.tarWriteHeader c header with
  | some err => .error (err.wrapf ErrTarHeaderWrite (w.showHeader header))
  | none =>
    match w.tarWrite c header content with
    | some err => .error (err.wrap ErrTarFileWrite)
    | none => .ok { c with entries := c.entries ++ [⟨header, content⟩] }

/-- The loop over the children of a directory in `Context.AddFilesystem`;
`walk` is the recursive call. -/
def addChildren (walk : Context → String → Except Abort Context) (path : String) :
    Context → List FileInfo → Except Abort Context
  | c, [] => .ok c
  | c, f :: rest =>
    match walk c (filepath.Join [path, f.Name]) with
    | .error (.error err) =>
      .error (.error (err.wrapf "Can't tar %s" (filepath.Join [path, f.Name])))
    | .error a => .error a
    | .ok c1 => addChildren walk path c1 rest

/-- The method `Context.AddFilesystem`, which maps a file system to the
archive. The first argument bounds the depth of the recursion. -/
def Context.AddFilesystem (w : World) (fs : BillyFS) (pfx : String) :
    Nat → Context → String → Except Abort Context
  | 0, _, _ => .error .outOfFuel
  | fuel + 1, c, path =>
    match fs.Stat path with
    | .error err => .error (.error (err.wrap "Can't stat"))
    | .ok info =>
      match w.tarFileInfoHeader info path with
      | .error err => .error (.error (err.wrap "Can't get header from fileinfo"))
      | .ok header0 =>
        let header : TarHeader := { header0 with Name := filepath.Join [pfx, path] }
        match w.tarWriteHeader c header with
        | some err => .error (.error (err.wrap "Can't write header"))
        | none =>
          if info.IsDir then
            let c1 : Context := { c with entries := c.entries ++ [⟨header, []⟩] }
            match fs.ReadDir path with
            | .error err => .error (.error (err.wrap "Can't read dir"))
            | .ok files =>
              addChildren (fun c2 p => Context.AddFilesystem w fs pfx fuel c2 p) path c1 files
          else if header.Typeflag = tar.TypeReg then
            match fs.Open path with
            | .error err => .error (.error (err.wrap "Can't open file"))
            | .ok file =>
              let data := file.content.take info.Size
              match w.tarWrite c header data with
              | some err =>
                if info.Size ≠ 0 then
                  .error (.error (err.wrap "Can't copy file content"))
                else
                  match file.closeErr with
                  | some cerr => .error (.error (cerr.wrap "Can't close file"))
                  | none => .ok { c with entries := c.entries ++ [⟨header, []⟩] }
              | none =>
                match file.closeErr with
                | some cerr => .error (.error (cerr.wrap "Can't close file"))
                | none => .ok { c with entries := c.entries ++ [⟨header, data⟩] }
          else
            .ok { c with entries := c.entries ++ [⟨header, []⟩] }

/-- The method `Context.Close`. -/
def Context.Close (w : World) (c : Context) : Except Error Context :=
  match w.tarClose c with
  | some err => .error (err.wrap ErrTarClose)
  | none => .ok { c with closed := true }

/-! ## docker.go: the builder -/

/-- The method `DockerBuilder.addFile`. -/
def DockerBuilder.addFile (w : World) (db : DockerBuilder) (dir filePath : String) :
    Except Abort DockerBuilder :=
  match w.ReadFile filePath with
  | .error err => .error (.error (err.wrapf ErrReadFile filePath))
  | .ok content =>
    match db.context with
    | none => .error (.panic "nil pointer dereference")
    | some ctx =>
      match ctx.AddFile w (filepath.Join [dir, filepath.Base filePath]) content with
      | .error err => .error (.error (err.wrap ErrAddDockerfile))
      | .ok ctx1 => .ok { db with context := some ctx1 }

/-- The inner loop of `getDockerContextFromFilesystem` over the files of a
listed directory. -/
def addDirFiles (w : World) (filePath : String) :
    DockerBuilder → List FileInfo → Except Abort DockerBuilder
  | db, [] => .ok db
  | db, f :: rest =>
    match db.addFile w (filepath.Base filePath) (filepath.Join [filePath, f.Name]) with
    | .error (.error err) => .error (.error (err.wrap ErrAddFile))
    | .error a => .error a
    | .ok db1 => addDirFiles w filePath db1 rest

/-- The head of the loop body of `getDockerContextFromFilesystem`: the test
`filePath[:2] == "~/"`, which slices the first two bytes of the path, and the
replacement of that start by the home directory of the current user. -/
def expandHome (w : World) (filePath : String) : Except Abort String :=
  let usr := w.userCurrent
  if filePath.utf8ByteSize < 2 then
    .error (.panic "slice bounds out of range")
  else if filePath.data.take 2 = ['~', '/'] then
    match usr with
    | none => .error (.panic "nil pointer dereference")
    | some u => .ok (filepath.Join [u.HomeDir, ⟨filePath.data.drop 2⟩])
  else .ok filePath

/-- One iteration of the loop of `getDockerContextFromFilesystem` over the
listed local paths. The second test of `err` after `ioutil.ReadDir`, the one
that would return `ErrUserDir`, repeats the test before it and never fires;
it is left out. -/
def addLocalPath (w : World) (db : DockerBuilder) (filePath : String) :
    Except Abort DockerBuilder :=
  match expandHome w filePath with
  | .error a => .error a
  | .ok filePath =>
    match w.osStat filePath with
    | .error err => .error (.error (err.wrapf ErrFileStat filePath))
    | .ok fileInfo =>
      if fileInfo.IsDir then
        match w.ioReadDir filePath with
        | .error err => .error (.error (err.wrapf ErrReadDir filePath))
        | .ok filesInfo => addDirFiles w filePath db filesInfo
      else
        match db.addFile w "" filePath with
        | .error (.error err) => .error (.error (err.wrap ErrAddFile))
        | .error a => .error a
        | .ok db1 => .ok db1

/-- The loop of `getDockerContextFromFilesystem` over the listed local
paths. -/
def addLocalPaths (w : World) : DockerBuilder → List String → Except Abort DockerBuilder
  | db, [] => .ok db
  | db, filePath :: rest =>
    match addLocalPath w db filePath with
    | .error a => .error a
    | .ok db1 => addLocalPaths w db1 rest

/-- The loop of `getDockerContextFromFilesystem` over the repository
stores. -/
def addStores (w : World) (fuel : Nat) :
    Context → List (String × GitStore) → Except Abort Context
  | c, [] => .ok c
  | c, (key, store) :: rest =>
    match c.AddFilesystem w store.fs (folderFromGitURL w.lowerTable key) fuel "." with
    | .error (.error err) => .error (.error (err.wrap ErrMappingFilesystem))
    | .error a => .error a
    | .ok c1 => addStores w fuel c1 rest

/-- The method `DockerBuilder.getDockerContextFromFilesystem`; `fuel` bounds
the depth of the repository trees walked. -/
def DockerBuilder.getDockerContextFromFilesystem (w : World) (fuel : Nat)
    (db : DockerBuilder) (dockerfile : Bytes) (files : List String) :
    Except Abort DockerBuilder :=
  match NewContext.AddFile w Dockerfile dockerfile with
  | .error err => .error (.error (err.wrap ErrAddDockerfile))
  | .ok ctx =>
    match addLocalPaths w { db with context := some ctx } files with
    | .error a => .error a
    | .ok db1 =>
      match db1.context with
      | none => .error (.panic "nil pointer dereference")
      | some ctx1 =>
        match addStores w fuel ctx1 db1.gitStore with
        | .error a => .error a
        | .ok ctx2 =>
          match ctx2.Close w with
          | .error err => .error (.error (err.wrap ErrClosingContext))
          | .ok ctx3 => .ok { db1 with context := some ctx3 }

/-- The entries of the context a builder holds; none while the context is
nil. -/
def DockerBuilder.entries (db : DockerBuilder) : List ArchiveEntry :=
  match db.context with
  | some c => c.entries
  | none => []

/-- An archive path escapes the context root: it is absolute, or one of its
elements is `..`. -/
def escapesRoot (path : String) : Bool :=
  path.data.head? = some '/' || (splitChars '/' path.data).contains dotdot

/-- A name as a directory listing gives it: without slash, and none of the
empty name, `.` and `..`. -/
def plainName (name : String) : Bool :=
  !name.data.contains '/' && name != "" && name != "." && name != ".."

/-- The entries `new` are the entries `old` followed by entries whose archive
paths all satisfy `Q`. -/
def Extends (Q : String → Prop) (old new : List ArchiveEntry) : Prop :=
  ∃ extra, new = old ++ extra ∧ ∀ e ∈ extra, Q e.header.Name

/-- The assignment `m[key] = value` on a Go map held as an association
list. -/
def mapSet {α : Type} (m : List (String × α)) (key : String) (value : α) :
    List (String × α) :=
  if m.any (fun p => p.1 = key) then
    m.map (fun p => if p.1 = key then (key, value) else p)
  else m ++ [(key, value)]

/-- The method `DockerBuilder.getRepositoryAtReference`: the builder with the
store of the repository as the clone leaves it, and the error returned. -/
def DockerBuilder.getRepositoryAtReference (w : World) (db : DockerBuilder)
    (repository reference : String) : Except Abort (DockerBuilder × Option Error) :=
  match db.gitStore.lookup repository with
  | none => .error (.panic "nil pointer dereference")
  | some store =>
    let cloned := w.gitClone store.fs repository ("refs/heads/" ++ reference)
    .ok ({ db with gitStore := mapSet db.gitStore repository ⟨cloned.1⟩ },
      errors.Wrap cloned.2 "Error cloning Git repository")

/-- One fetch started by `NewDockerBuilder`: the repository, the reference
handed to `getRepositoryAtReference`, and the error the goroutine returned
(which nothing receives). -/
structure Fetch where
  repository : String
  reference : String
  result : Option Error
deriving DecidableEq, Repr

/-- The loop of `NewDockerBuilder` over `matrix.Git`, with each goroutine run
to completion where it is started (a goroutine touches its own store only,
and `wg.Wait()` follows the loop). The second component records the fetches
made. -/
def fetchLoop (w : World) (branchOverride : String) :
    DockerBuilder → List (String × String) → Except Abort (DockerBuilder × List Fetch)
  | db, [] => .ok (db, [])
  | db, (repository, reference) :: rest =>
    let db1 : DockerBuilder :=
      { db with gitStore := mapSet db.gitStore repository ⟨w.memfsNew⟩ }
    let ref := if branchOverride ≠ "" then branchOverride else reference
    match db1.getRepositoryAtReference w repository ref with
    | .error a => .error a
    | .ok (db2, err) =>
      match fetchLoop w branchOverride db2 rest with
      | .error a => .error a
      | .ok (db3, fetches) =>
        .ok (db3, ⟨repository, ref, errors.Wrap err ErrGetRepository⟩ :: fetches)

/-- The constructor `NewDockerBuilder`, together with the fetches it made. -/
def NewDockerBuilderTraced (w : World) (fuel : Nat) (matrix : Option BuildMatrix)
    (dockerfile : Bytes) (tag branchOverride : String) :
    Except Abort (DockerBuilder × List Fetch) :=
  let dockerBuilder : DockerBuilder := { tags := [tag], gitStore := [], context := none }
  match matrix with
  | none => .error (.panic "nil pointer dereference")
  | some matrix =>
    match fetchLoop w branchOverride dockerBuilder matrix.Git with
    | .error a => .error a
    | .ok (db1, fetches) =>
      match db1.getDockerContextFromFilesystem w fuel dockerfile matrix.Files with
      | .error (.error err) =>
        .error (.error (err.wrap ErrFileSystemEncodingToDockerContext))
      | .error a => .error a
      | .ok db2 => .ok (db2, fetches)

/-- The constructor `NewDockerBuilder`. -/
def NewDockerBuilder (w : World) (fuel : Nat) (matrix : Option BuildMatrix)
    (dockerfile : Bytes) (tag branchOverride : String) : Except Abort DockerBuilder :=
  match NewDockerBuilderTraced w fuel matrix dockerfile tag branchOverride with
  | .error a => .error a
  | .ok (db, _) => .ok db

/-! ## docker.go: build, promotion, clean-up -/

/-- The filter arguments of both image listings of `Build`. -/
def filterArgs : List (String × String) := [("label", "build_tag"), ("dangling", "true")]

/-- The promotion loop of `Build` over the listed images: the requests made
are appended to `calls`. -/
def tagLoop (d : Daemon) : List DaemonCall → List Image → List DaemonCall × Option Error
  | calls, [] => (calls, none)
  | calls, image :: rest =>
    let tag := image.label "build_tag"
    if tag ≠ "" then
      match d.ImageTag calls image.ID (image.label "build_tag") with
      | some err =>
        (calls ++ [.ImageTag image.ID (image.label "build_tag")],
          errors.Wrap (some err) ErrTagImage)
      | none => tagLoop d (calls ++ [.ImageTag image.ID (image.label "build_tag")]) rest
    else tagLoop d calls rest

/-- The clean-up loop of `Build` over the images listed after promotion. -/
def removeLoop (d : Daemon) : List DaemonCall → List Image → List DaemonCall × Option Error
  | calls, [] => (calls, none)
  | calls, image :: rest =>
    match d.ImageRemove calls image.ID with
    | some err => (calls ++ [.ImageRemove image.ID], errors.Wrap (some err) ErrRemoveImage)
    | none => removeLoop d (calls ++ [.ImageRemove image.ID]) rest

/-- The method `DockerBuilder.Build`: the requests made to the daemon, in
order, and how the call ends. -/
def DockerBuilder.Build (d : Daemon) (db : DockerBuilder) :
    List DaemonCall × Except Abort Unit :=
  match d.NewClient with
  | some err => ([], .error (.error (err.wrap ErrCreateClient)))
  | none =>
    match db.context with
    | none => ([], .error (.panic "nil pointer dereference"))
    | some ctx =>
      let calls1 := [DaemonCall.ImageBuild ctx]
      match d.ImageBuild [] ctx with
      | some err => (calls1, .error (.error (err.wrap ErrBuild)))
      | none =>
        match d.DisplayJSONMessagesToStream calls1 with
        | some err => (calls1, .error (.error (err.wrap ErrOutputStream)))
        | none =>
          let calls2 := calls1 ++ [.ImageList filterArgs]
          match d.ImageList calls1 filterArgs with
          | .error err => (calls2, .error (.error (err.wrap ErrListImage)))
          | .ok images =>
            match tagLoop d calls2 images with
            | (calls3, some err) => (calls3, .error (.error err))
            | (calls3, none) =>
              let calls4 := calls3 ++ [.ImageList filterArgs]
              match d.ImageList calls3 filterArgs with
              | .error err => (calls4, .error (.error (err.wrap ErrListImage)))
              | .ok deletableImages =>
                match removeLoop d calls4 deletableImages with
                | (calls5, some err) => (calls5, .error (.error err))
                | (calls5, none) => (calls5, .ok ())

/-- The method `Builder.Build`: the requests made to the daemon and how the
call ends. -/
def Builder.Build (w : World) (d : Daemon) (fuel : Nat) (b : Builder)
    (tag branchOverride : String) : List DaemonCall × Except Abort Unit :=
  match NewDockerBuilder w fuel b.buildMatrix b.dockerfile tag branchOverride with
  | .error (.error err) => ([], .error (.error (err.wrap ErrNewDockerBuilder)))
  | .error a => ([], .error a)
  | .ok dockerBuilder =>
    match dockerBuilder.Build d with
    | (calls, .error (.error err)) => (calls, .error (.error (err.wrap ErrDockerBuild)))
    | (calls, r) => (calls, r)

/-! ## Concrete collaborators used to evaluate the code -/

/-- An error value for the concrete collaborators below. -/
def notExist : Error := ⟨"file does not exist"⟩

/-- A billy file system on which every call fails. -/
def BillyFS.failing : BillyFS :=
  { Stat := fun _ => .error notExist
    ReadDir := fun _ => .error notExist
    Open := fun _ => .error notExist }

/-- A world with an empty local file system, no current user, a tar writer
that never fails and a git clone that leaves the store as it found it. -/
def World.bare : World :=
  { Stdin := ⟨[], none⟩
    fsStat := fun _ => .error notExist
    fsOpen := fun _ => .error notExist
    yamlUnmarshal := fun _ => .ok none
    ReadFile := fun _ => .error notExist
    osStat := fun _ => .error notExist
    ioReadDir := fun _ => .error notExist
    userCurrent := none
    lowerTable := id
    memfsNew := BillyFS.failing
    gitClone := fun fs _ _ => (fs, none)
    tarFileInfoHeader := fun info _ =>
      .ok ⟨info.Name, 0, if info.IsDir then 0 else info.Size, if info.IsDir then 53 else 48⟩
    tarWriteHeader := fun _ _ => none
    tarWrite := fun _ _ _ => none
    tarClose := fun _ => none
    showHeader := fun h => h.Name }

/-- A world in which every path of the afero file system is a directory. -/
def World.allDirs : World :=
  { World.bare with fsStat := fun p => .ok ⟨p, true, 0⟩ }

/-- A daemon on which every request succeeds and every listing returns
`images`. -/
def Daemon.listing (images : List Image) : Daemon :=
  { NewClient := none
    ImageBuild := fun _ _ => none
    DisplayJSONMessagesToStream := fun _ => none
    ImageList := fun _ _ => .ok images
    ImageTag := fun _ _ _ => none
    ImageRemove := fun _ _ => none }

/-- A parsed builder with an empty build matrix and the Dockerfile text
`FROM`. -/
def Builder.scratch : Builder :=
  { buildMatrix := some ⟨[], []⟩, file := ⟨[], none⟩, frontMatter := [103, 10],
    dockerfile := [70, 82, 79, 77, 10] }

/-- A store file system that holds an empty root directory and nothing
else. -/
def BillyFS.emptyRoot : BillyFS :=
  { Stat := fun p => if p = "." then .ok ⟨".", true, 0⟩ else .error notExist
    ReadDir := fun p => if p = "." then .ok [] else .error notExist
    Open := fun _ => .error notExist }

/-- A world in which every clone fails after leaving a root directory in the
store. -/
def World.cloneFails : World :=
  { World.bare with
    gitClone := fun _ _ _ => (BillyFS.emptyRoot, some ⟨"repository not found"⟩) }

/-- A parsed builder whose matrix declares one repository and no local
file. -/
def Builder.oneRepository : Builder :=
  { Builder.scratch with buildMatrix := some ⟨[], [("https://h/o/r", "main")]⟩ }

/-- A world whose working directory holds a regular file `Dockerfile`. -/
def World.localDockerfile : World :=
  { World.bare with
    osStat := fun p =>
      if p = "Dockerfile" then .ok ⟨"Dockerfile", false, 4⟩ else .error notExist
    ReadFile := fun p =>
      if p = "Dockerfile" then .ok [70, 82, 79, 77] else .error notExist }

/-- A world whose parent directory `..` holds the regular file `x`. -/
def World.parentDir : World :=
  { World.bare with
    osStat := fun p => if p = ".." then .ok ⟨"..", true, 0⟩ else .error notExist
    ioReadDir := fun p => if p = ".." then .ok [⟨"x", false, 1⟩] else .error notExist
    ReadFile := fun p => if p = "../x" then .ok [120] else .error notExist }

/-- A builder as `NewDockerBuilder` has it before context assembly when no
repository is declared. -/
def DockerBuilder.noStores : DockerBuilder :=
  { tags := ["t"], gitStore := [], context := none }

/-- A world whose working directory holds the regular file `a.txt` and the
directory `conf` with the file `app.yml`. -/
def World.sample : World :=
  { World.bare with
    osStat := fun p =>
      if p = "a.txt" then .ok ⟨"a.txt", false, 1⟩
      else if p = "conf" then .ok ⟨"conf", true, 0⟩
      else .error notExist
    ioReadDir := fun p =>
      if p = "conf" then .ok [⟨"app.yml", false, 1⟩] else .error notExist
    ReadFile := fun p =>
      if p = "a.txt" then .ok [97]
      else if p = "conf/app.yml" then .ok [98]
      else .error notExist }

/-- A store file system whose root directory holds the file `README`. -/
def BillyFS.readme : BillyFS :=
  { Stat := fun p =>
      if p = "." then .ok ⟨".", true, 0⟩
      else if p = "README" then .ok ⟨"README", false, 2⟩
      else .error notExist
    ReadDir := fun p => if p = "." then .ok [⟨"README", false, 2⟩] else .error notExist
    Open := fun p => if p = "README" then .ok ⟨[104, 105], none⟩ else .error notExist }

/-- A builder before context assembly that holds the fetched store of one
repository. -/
def DockerBuilder.oneStore : DockerBuilder :=
  { tags := ["t"], gitStore := [("https://h/o/Repo.git", ⟨BillyFS.readme⟩)], context := none }

/-- The builder `DockerBuilder.oneStore` after context assembly in
`World.sample` with the local paths `a.txt` and `conf`. -/
def DockerBuilder.assembled : DockerBuilder :=
  { DockerBuilder.oneStore with
    context := some
      ⟨[⟨⟨"Dockerfile", 0o600, 5, 0⟩, [70, 82, 79, 77, 10]⟩,
        ⟨⟨"a.txt", 0o600, 1, 0⟩, [97]⟩,
        ⟨⟨"conf/app.yml", 0o600, 1, 0⟩, [98]⟩,
        ⟨⟨"repo", 0, 0, 53⟩, []⟩,
        ⟨⟨"repo/README", 0, 2, 48⟩, [104, 105]⟩], true⟩ }


/-! ## Theorems: the library models on known values -/

/-- The model of `filepath.Clean` agrees with Go on its documented cases. -/
theorem filepath_Clean_values :
    filepath.Clean "a/b/../c" = "a/c" ∧
    filepath.Clean "../a" = "../a" ∧
    filepath.Clean "/../a" = "/a" ∧
    filepath.Clean "a/../.." = ".." ∧
    filepath.Clean "./" = "." ∧
    filepath.Clean "//a//b/" = "/a/b" ∧
    filepath.Clean "a/./b" = "a/b" ∧
    filepath.Clean "" = "." ∧
    filepath.Clean "/" = "/" ∧
    filepath.Clean "../../a/../b" = "../../b" := by
  decide

/-- The model of `filepath.Join` agrees with Go on sample arguments. -/
theorem filepath_Join_values :
    filepath.Join ["", "x"] = "x" ∧
    filepath.Join ["..", "x"] = "../x" ∧
    filepath.Join ["a", ""] = "a" ∧
    filepath.Join ["", ""] = "" ∧
    filepath.Join ["/", "x"] = "/x" := by
  decide

/-- The model of `filepath.Base` agrees with Go on its documented cases. -/
theorem filepath_Base_values :
    filepath.Base "" = "." ∧
    filepath.Base "/" = "/" ∧
    filepath.Base "//" = "/" ∧
    filepath.Base "a/b/" = "b" ∧
    filepath.Base "a/b" = "b" ∧
    filepath.Base ".." = ".." ∧
    filepath.Base "/a" = "a" := by
  decide

/-- The models of `strings.Split`, `strings.TrimSuffix` and `strings.ToLower` on sample arguments. -/
theorem strings_values :
    strings.Split "a/b//c" '/' = ["a","b","","c"] ∧
    strings.Split "" '/' = [""] ∧
    strings.TrimSuffix "repo.git" ".git" = "repo" ∧
    strings.TrimSuffix "repo.GIT" ".git" = "repo.GIT" ∧
    strings.ToLower id "RePo.GIT" = "repo.git" := by
  decide

/-! ## Theorems: parseFile -/

theorem withLineEnds_append (xs ys : List Bytes) :
    withLineEnds (xs ++ ys) = withLineEnds xs ++ withLineEnds ys := by
  induction xs with
  | nil => rfl
  | cons x xs ih => simp [withLineEnds, ih]

theorem withLineEnds_eq_nil {xs : List Bytes} : withLineEnds xs = [] ↔ xs = [] := by
  cases xs with
  | nil => simp [withLineEnds]
  | cons x xs => simp [withLineEnds]

/-- The loop of `parseFile` appends to each buffer the lines collected for it,
each followed by the line ending. -/
theorem scanLoop_buffers (lines : List Bytes) (wfm : Bool) (fm df : Bytes) :
    (scanLoop ⟨wfm, fm, df⟩ lines).frontMatter
        = fm ++ withLineEnds (frontMatterLines wfm lines) ∧
    (scanLoop ⟨wfm, fm, df⟩ lines).dockerfile
        = df ++ withLineEnds (dockerfileLines wfm lines) := by
  induction lines generalizing wfm fm df with
  | nil => simp [scanLoop, frontMatterLines, dockerfileLines, withLineEnds]
  | cons line rest ih =>
    unfold scanLoop at ih ⊢
    rw [List.foldl_cons]
    by_cases hd : line = YAMLDelim
    · cases wfm <;> simp [parseLine, hd, frontMatterLines, dockerfileLines, ih]
    · cases wfm <;>
        simp [parseLine, hd, frontMatterLines, dockerfileLines, ih, withLineEnds]

theorem frontMatterLines_of_no_delim (wfm : Bool) (ls : List Bytes)
    (h : ∀ l ∈ ls, l ≠ YAMLDelim) :
    frontMatterLines wfm ls = if wfm then ls else [] := by
  induction ls with
  | nil => cases wfm <;> rfl
  | cons l ls ih =>
    have hl : l ≠ YAMLDelim := h l (List.mem_cons_self _ _)
    have ih1 := ih (fun x hx => h x (List.mem_cons_of_mem _ hx))
    cases wfm <;> simp_all [frontMatterLines]

theorem dockerfileLines_of_no_delim (wfm : Bool) (ls : List Bytes)
    (h : ∀ l ∈ ls, l ≠ YAMLDelim) :
    dockerfileLines wfm ls = if wfm then [] else ls := by
  induction ls with
  | nil => cases wfm <;> rfl
  | cons l ls ih =>
    have hl : l ≠ YAMLDelim := h l (List.mem_cons_self _ _)
    have ih1 := ih (fun x hx => h x (List.mem_cons_of_mem _ hx))
    cases wfm <;> simp_all [dockerfileLines]

theorem frontMatterLines_append (wfm : Bool) (xs ys : List Bytes)
    (h : ∀ l ∈ xs, l ≠ YAMLDelim) :
    frontMatterLines wfm (xs ++ ys)
      = (if wfm then xs else []) ++ frontMatterLines wfm ys := by
  induction xs with
  | nil => cases wfm <;> rfl
  | cons l ls ih =>
    have hl : l ≠ YAMLDelim := h l (List.mem_cons_self _ _)
    have ih1 := ih (fun x hx => h x (List.mem_cons_of_mem _ hx))
    cases wfm <;> simp_all [frontMatterLines]

theorem dockerfileLines_append (wfm : Bool) (xs ys : List Bytes)
    (h : ∀ l ∈ xs, l ≠ YAMLDelim) :
    dockerfileLines wfm (xs ++ ys)
      = (if wfm then [] else xs) ++ dockerfileLines wfm ys := by
  induction xs with
  | nil => cases wfm <;> rfl
  | cons l ls ih =>
    have hl : l ≠ YAMLDelim := h l (List.mem_cons_self _ _)
    have ih1 := ih (fun x hx => h x (List.mem_cons_of_mem _ hx))
    cases wfm <;> simp_all [dockerfileLines]

/-- The buffers of a fresh builder after `parseFile`. -/
theorem parseFile_buffers (file : File) :
    (Builder.fresh file).parseFile.1.frontMatter
        = withLineEnds (frontMatterLines false file.lines) ∧
    (Builder.fresh file).parseFile.1.dockerfile
        = withLineEnds (dockerfileLines false file.lines) := by
  have h := scanLoop_buffers file.lines false [] []
  simp only [List.nil_append] at h
  unfold Builder.parseFile
  simp only [Builder.fresh, Builder.zero]
  cases file.err with
  | some e => exact h
  | none =>
    simp only
    split
    · exact h
    · split
      · exact h
      · exact h

/-- The error of `parseFile` on a fresh builder whose scan ends cleanly. -/
theorem parseFile_error (file : File) (hscan : file.err = none) :
    (Builder.fresh file).parseFile.2 =
      if frontMatterLines false file.lines = [] then
        some (errors.New ErrEmptyFrontMatter)
      else if dockerfileLines false file.lines = [] then
        some (errors.New ErrEmptyDockerfile)
      else none := by
  have h := scanLoop_buffers file.lines false [] []
  simp only [List.nil_append] at h
  unfold Builder.parseFile
  simp only [Builder.fresh, Builder.zero, hscan, h.1, h.2, List.length_eq_zero,
    withLineEnds_eq_nil]
  split
  · rfl
  · split <;> rfl


/-- C3: a fresh builder reading, without scan error, a line `---`, one or more
lines F other than `---`, a line `---` and one or more lines D other than
`---` parses without error; the front-matter buffer is exactly the lines F and
the Dockerfile buffer exactly the lines D, each line followed by the line
ending, and both buffers are non-empty. -/
theorem parseFile_well_formed (F D : List Bytes) (hF : F ≠ []) (hD : D ≠ [])
    (hFd : ∀ l ∈ F, l ≠ YAMLDelim) (hDd : ∀ l ∈ D, l ≠ YAMLDelim) :
    (Builder.fresh ⟨[YAMLDelim] ++ F ++ [YAMLDelim] ++ D, none⟩).parseFile.2 = none ∧
    (Builder.fresh ⟨[YAMLDelim] ++ F ++ [YAMLDelim] ++ D, none⟩).parseFile.1.frontMatter
      = withLineEnds F ∧
    (Builder.fresh ⟨[YAMLDelim] ++ F ++ [YAMLDelim] ++ D, none⟩).parseFile.1.dockerfile
      = withLineEnds D ∧
    (Builder.fresh ⟨[YAMLDelim] ++ F ++ [YAMLDelim] ++ D, none⟩).parseFile.1.frontMatter ≠ [] ∧
    (Builder.fresh ⟨[YAMLDelim] ++ F ++ [YAMLDelim] ++ D, none⟩).parseFile.1.dockerfile ≠ [] := by
  have hfm : frontMatterLines false ([YAMLDelim] ++ F ++ [YAMLDelim] ++ D) = F := by
    have h1 := frontMatterLines_append true F ([YAMLDelim] ++ D) hFd
    have h2 := frontMatterLines_of_no_delim false D hDd
    simp [frontMatterLines] at h1 h2 ⊢
    rw [h1, h2]; simp
  have hdf : dockerfileLines false ([YAMLDelim] ++ F ++ [YAMLDelim] ++ D) = D := by
    have h1 := dockerfileLines_append true F ([YAMLDelim] ++ D) hFd
    have h2 := dockerfileLines_of_no_delim false D hDd
    simp [dockerfileLines] at h1 h2 ⊢
    rw [h1, h2]
  have hb := parseFile_buffers ⟨[YAMLDelim] ++ F ++ [YAMLDelim] ++ D, none⟩
  have he := parseFile_error ⟨[YAMLDelim] ++ F ++ [YAMLDelim] ++ D, none⟩ rfl
  simp only [hfm, hdf] at hb he
  refine ⟨?_, hb.1, hb.2, ?_, ?_⟩
  · rw [he]; simp [hF, hD]
  · rw [hb.1]; simpa [withLineEnds_eq_nil] using hF
  · rw [hb.2]; simpa [withLineEnds_eq_nil] using hD

theorem parseFile_well_formed_witness :
    (Builder.fresh ⟨[YAMLDelim] ++ [[103, 105, 116, 58]] ++ [YAMLDelim] ++ [[70, 82, 79, 77]],
        none⟩).parseFile.2 = none ∧
    (Builder.fresh ⟨[YAMLDelim] ++ [[103, 105, 116, 58]] ++ [YAMLDelim] ++ [[70, 82, 79, 77]],
        none⟩).parseFile.1.frontMatter = withLineEnds [[103, 105, 116, 58]] ∧
    (Builder.fresh ⟨[YAMLDelim] ++ [[103, 105, 116, 58]] ++ [YAMLDelim] ++ [[70, 82, 79, 77]],
        none⟩).parseFile.1.dockerfile = withLineEnds [[70, 82, 79, 77]] ∧
    (Builder.fresh ⟨[YAMLDelim] ++ [[103, 105, 116, 58]] ++ [YAMLDelim] ++ [[70, 82, 79, 77]],
        none⟩).parseFile.1.frontMatter ≠ [] ∧
    (Builder.fresh ⟨[YAMLDelim] ++ [[103, 105, 116, 58]] ++ [YAMLDelim] ++ [[70, 82, 79, 77]],
        none⟩).parseFile.1.dockerfile ≠ [] :=
  parseFile_well_formed [[103, 105, 116, 58]] [[70, 82, 79, 77]] (by decide) (by decide)
    (by decide) (by decide)

/-- C4: for a fresh builder whose scan ends without error, `parseFile` returns
an error exactly when no line was collected as front matter or no line was
collected as Dockerfile text; the error is `Error no frontmatter content`
whenever the front matter is empty and `Error no Dockerfile content` when the
front matter is non-empty and the Dockerfile text is empty. Each buffer holds
the lines collected for it, so it is empty exactly when none was. -/
theorem parseFile_error_iff (file : File) (hscan : file.err = none) :
    ((Builder.fresh file).parseFile.2 ≠ none ↔
      frontMatterLines false file.lines = [] ∨ dockerfileLines false file.lines = []) ∧
    (frontMatterLines false file.lines = [] →
      (Builder.fresh file).parseFile.2 = some ⟨"Error no frontmatter content"⟩) ∧
    (frontMatterLines false file.lines ≠ [] → dockerfileLines false file.lines = [] →
      (Builder.fresh file).parseFile.2 = some ⟨"Error no Dockerfile content"⟩) ∧
    ((Builder.fresh file).parseFile.1.frontMatter = [] ↔
      frontMatterLines false file.lines = []) ∧
    ((Builder.fresh file).parseFile.1.dockerfile = [] ↔
      dockerfileLines false file.lines = []) := by
  have he := parseFile_error file hscan
  have hb := parseFile_buffers file
  refine ⟨?_, ?_, ?_, ?_, ?_⟩
  · rw [he]
    by_cases h1 : frontMatterLines false file.lines = []
    · simp [h1]
    · by_cases h2 : dockerfileLines false file.lines = [] <;> simp [h1, h2]
  · intro h1
    rw [he]; simp [h1, errors.New, ErrEmptyFrontMatter]
  · intro h1 h2
    rw [he]; simp [h1, h2, errors.New, ErrEmptyDockerfile]
  · rw [hb.1, withLineEnds_eq_nil]
  · rw [hb.2, withLineEnds_eq_nil]

theorem parseFile_error_iff_witness :
    ((Builder.fresh ⟨[[45, 45, 45], [103], [45, 45, 45]], none⟩).parseFile.2 ≠ none ↔
      frontMatterLines false [[45, 45, 45], [103], [45, 45, 45]] = [] ∨
      dockerfileLines false [[45, 45, 45], [103], [45, 45, 45]] = []) ∧
    (frontMatterLines false [[45, 45, 45], [103], [45, 45, 45]] = [] →
      (Builder.fresh ⟨[[45, 45, 45], [103], [45, 45, 45]], none⟩).parseFile.2
        = some ⟨"Error no frontmatter content"⟩) ∧
    (frontMatterLines false [[45, 45, 45], [103], [45, 45, 45]] ≠ [] →
      dockerfileLines false [[45, 45, 45], [103], [45, 45, 45]] = [] →
      (Builder.fresh ⟨[[45, 45, 45], [103], [45, 45, 45]], none⟩).parseFile.2
        = some ⟨"Error no Dockerfile content"⟩) ∧
    ((Builder.fresh ⟨[[45, 45, 45], [103], [45, 45, 45]], none⟩).parseFile.1.frontMatter = [] ↔
      frontMatterLines false [[45, 45, 45], [103], [45, 45, 45]] = []) ∧
    ((Builder.fresh ⟨[[45, 45, 45], [103], [45, 45, 45]], none⟩).parseFile.1.dockerfile = [] ↔
      dockerfileLines false [[45, 45, 45], [103], [45, 45, 45]] = []) :=
  parseFile_error_iff ⟨[[45, 45, 45], [103], [45, 45, 45]], none⟩ rfl

/-- C10 as stated fails: the three lines `FROM`, `---`, `git:` hold a single
delimiter line, yet a fresh builder parses them without error, the first line
as Dockerfile text and the last as front matter. -/
theorem parseFile_single_delimiter_accepted :
    List.count YAMLDelim [[70, 82, 79, 77], [45, 45, 45], [103, 105, 116, 58]] < 2 ∧
    (Builder.fresh ⟨[[70, 82, 79, 77], [45, 45, 45], [103, 105, 116, 58]], none⟩).parseFile.2
      = none ∧
    (Builder.fresh ⟨[[70, 82, 79, 77], [45, 45, 45], [103, 105, 116, 58]], none⟩).parseFile.1.frontMatter
      = [103, 105, 116, 58, 10] ∧
    (Builder.fresh ⟨[[70, 82, 79, 77], [45, 45, 45], [103, 105, 116, 58]], none⟩).parseFile.1.dockerfile
      = [70, 82, 79, 77, 10] := by
  decide

/-- C10, amended: an input without any line `---` is rejected by `parseFile`,
whatever the scan reports; an input with exactly one line `---` that is
scanned without error is rejected exactly when no line precedes the delimiter
or no line follows it. -/
theorem parseFile_missing_delimiter (file : File) (pre post : List Bytes)
    (hpre : ∀ l ∈ pre, l ≠ YAMLDelim) (hpost : ∀ l ∈ post, l ≠ YAMLDelim) :
    ((∀ l ∈ file.lines, l ≠ YAMLDelim) → (Builder.fresh file).parseFile.2 ≠ none) ∧
    ((Builder.fresh ⟨pre ++ [YAMLDelim] ++ post, none⟩).parseFile.2 ≠ none ↔
      pre = [] ∨ post = []) := by
  constructor
  · intro hno
    cases hscan : file.err with
    | some e =>
      unfold Builder.parseFile
      simp [Builder.fresh, Builder.zero, hscan, errors.Wrap]
    | none =>
      rw [parseFile_error file hscan, frontMatterLines_of_no_delim false _ hno]
      simp
  · have h1 := frontMatterLines_append false pre ([YAMLDelim] ++ post) hpre
    have h2 := dockerfileLines_append false pre ([YAMLDelim] ++ post) hpre
    have h3 := frontMatterLines_of_no_delim true post hpost
    have h4 := dockerfileLines_of_no_delim true post hpost
    simp [frontMatterLines, dockerfileLines] at h1 h2 h3 h4
    rw [h3] at h1
    rw [h4] at h2
    rw [parseFile_error _ rfl]
    simp only [List.append_assoc, List.singleton_append, h1, h2, List.append_nil]
    by_cases hp : post = []
    · simp [hp]
    · by_cases hq : pre = [] <;> simp [hp, hq]

theorem parseFile_missing_delimiter_witness :
    ((∀ l ∈ (File.mk [[101, 109, 112, 116, 121]] none).lines, l ≠ YAMLDelim) →
      (Builder.fresh ⟨[[101, 109, 112, 116, 121]], none⟩).parseFile.2 ≠ none) ∧
    ((Builder.fresh ⟨[[103]] ++ [YAMLDelim] ++ [], none⟩).parseFile.2 ≠ none ↔
      [[103]] = ([] : List Bytes) ∨ ([] : List Bytes) = []) :=
  parseFile_missing_delimiter ⟨[[101, 109, 112, 116, 121]], none⟩ [[103]] []
    (by decide) (by decide)

/-! ## Theorems: NewBuilder -/

/-- C8: for a non-empty path, `NewBuilder` returns no builder and an error
whose message starts with `Please pass a valid Dockerfile` when `fs.Stat`
fails; when the path names a directory it returns no builder and no error,
because `errors.Wrap` of a nil error is nil. -/
theorem NewBuilder_invalid_file (w : World) (filepath : String) (hne : filepath ≠ "") :
    (∀ err, w.fsStat filepath = .error err →
      NewBuilder w filepath = (none, some ⟨ErrInvalidFile ++ ": " ++ err.msg⟩)) ∧
    (∀ fd, w.fsStat filepath = .ok fd → fd.IsDir = true →
      NewBuilder w filepath = (none, none)) := by
  constructor
  · intro err h
    simp [NewBuilder, hne, h, errors.Wrap, Error.wrap]
  · intro fd h hdir
    simp [NewBuilder, hne, h, hdir, errors.Wrap]

theorem NewBuilder_invalid_file_witness :
    NewBuilder World.allDirs "/tmp" = (none, none) :=
  (NewBuilder_invalid_file World.allDirs "/tmp" (by decide)).2 ⟨"/tmp", true, 0⟩ rfl rfl

/-! ## Theorems: promotion -/

theorem tagLoop_mem (d : Daemon) (images : List Image) (calls : List DaemonCall)
    (c : DaemonCall) (h : c ∈ (tagLoop d calls images).1) :
    c ∈ calls ∨ ∃ image ∈ images,
      c = .ImageTag image.ID (image.label "build_tag") ∧ image.label "build_tag" ≠ "" := by
  induction images generalizing calls with
  | nil => exact Or.inl (by simpa [tagLoop] using h)
  | cons image rest ih =>
    unfold tagLoop at h
    by_cases ht : image.label "build_tag" = ""
    · simp only [ht, ne_eq, not_true_eq_false, if_false] at h
      rcases ih calls h with h1 | ⟨im, him, h2⟩
      · exact Or.inl h1
      · exact Or.inr ⟨im, List.mem_cons_of_mem _ him, h2⟩
    · simp only [ne_eq, ht, not_false_eq_true, if_true] at h
      cases hd : d.ImageTag calls image.ID (image.label "build_tag") with
      | some err =>
        simp only [hd, List.mem_append, List.mem_singleton] at h
        rcases h with h1 | h1
        · exact Or.inl h1
        · exact Or.inr ⟨image, List.mem_cons_self _ _, h1, ht⟩
      | none =>
        simp only [hd] at h
        rcases ih _ h with h1 | ⟨im, him, h2⟩
        · rcases List.mem_append.mp h1 with h3 | h3
          · exact Or.inl h3
          · exact Or.inr ⟨image, List.mem_cons_self _ _, by simpa using h3, ht⟩
        · exact Or.inr ⟨im, List.mem_cons_of_mem _ him, h2⟩

theorem removeLoop_mem (d : Daemon) (images : List Image) (calls : List DaemonCall)
    (c : DaemonCall) (h : c ∈ (removeLoop d calls images).1) :
    c ∈ calls ∨ ∃ image ∈ images, c = .ImageRemove image.ID := by
  induction images generalizing calls with
  | nil => exact Or.inl (by simpa [removeLoop] using h)
  | cons image rest ih =>
    unfold removeLoop at h
    cases hd : d.ImageRemove calls image.ID with
    | some err =>
      simp only [hd, List.mem_append, List.mem_singleton] at h
      rcases h with h1 | h1
      · exact Or.inl h1
      · exact Or.inr ⟨image, List.mem_cons_self _ _, h1⟩
    | none =>
      simp only [hd] at h
      rcases ih _ h with h1 | ⟨im, him, h2⟩
      · rcases List.mem_append.mp h1 with h3 | h3
        · exact Or.inl h3
        · exact Or.inr ⟨image, List.mem_cons_self _ _, by simpa using h3⟩
      · exact Or.inr ⟨im, List.mem_cons_of_mem _ him, h2⟩

/-- C1 as stated fails: the builder made for the requested tag `app:1` tags
the listed image whose `build_tag` label is `other:2` with `other:2`; the
requested tag is never sent to the daemon. -/
theorem Build_ignores_requested_tag :
    (Builder.scratch.Build World.bare
        (Daemon.listing [⟨"sha256:1", [("build_tag", "other:2")]⟩]) 0 "app:1" "").1
      = [.ImageBuild ⟨[⟨⟨"Dockerfile", 0o600, 5, 0⟩, [70, 82, 79, 77, 10]⟩], true⟩,
         .ImageList [("label", "build_tag"), ("dangling", "true")],
         .ImageTag "sha256:1" "other:2",
         .ImageList [("label", "build_tag"), ("dangling", "true")],
         .ImageRemove "sha256:1"] := by
  decide

/-- C1, amended: whatever tag the builder was made for, every image that
`Build` tags in the promotion step is an image of the first listing whose
`build_tag` label is non-empty, and the tag applied to it is the value of that
label. -/
theorem Build_tags_by_label (d : Daemon) (db : DockerBuilder) (source ref : String)
    (h : DaemonCall.ImageTag source ref ∈ (db.Build d).1) :
    ∃ ctx images image, db.context = some ctx ∧
      d.ImageList [.ImageBuild ctx] filterArgs = .ok images ∧ image ∈ images ∧
      image.ID = source ∧ image.label "build_tag" = ref ∧ ref ≠ "" := by
  unfold DockerBuilder.Build at h
  cases hN : d.NewClient with
  | some err => simp [hN] at h
  | none =>
    cases hc : db.context with
    | none => simp [hN, hc] at h
    | some ctx =>
      simp only [hN, hc] at h
      cases hB : d.ImageBuild [] ctx with
      | some err => simp [hB] at h
      | none =>
        simp only [hB] at h
        cases hD : d.DisplayJSONMessagesToStream [.ImageBuild ctx] with
        | some err => simp [hD] at h
        | none =>
          simp only [hD] at h
          cases hL : d.ImageList [.ImageBuild ctx] filterArgs with
          | error err => simp [hL] at h
          | ok images =>
            simp only [hL] at h
            have key : ∀ c, c ∈ (tagLoop d ([DaemonCall.ImageBuild ctx] ++
                  [DaemonCall.ImageList filterArgs]) images).1 →
                c = DaemonCall.ImageTag source ref →
                ∃ image, image ∈ images ∧ image.ID = source ∧
                  image.label "build_tag" = ref ∧ ref ≠ "" := by
              intro c hc1 hc2
              rcases tagLoop_mem d images _ c hc1 with h1 | ⟨im, him, h2, h3⟩
              · subst hc2; simp at h1
              · subst hc2
                injection h2 with e1 e2
                exact ⟨im, him, e1.symm, e2.symm, by rw [e2]; exact h3⟩
            have fin : ∀ image, image ∈ images ∧ image.ID = source ∧
                  image.label "build_tag" = ref ∧ ref ≠ "" →
                ∃ ctx1 images1 image1, some ctx = some ctx1 ∧
                  d.ImageList [.ImageBuild ctx1] filterArgs = .ok images1 ∧ image1 ∈ images1 ∧
                  image1.ID = source ∧ image1.label "build_tag" = ref ∧ ref ≠ "" :=
              fun image hi => ⟨ctx, images, image, rfl, hL, hi⟩
            rcases hT : tagLoop d ([DaemonCall.ImageBuild ctx] ++
                [DaemonCall.ImageList filterArgs]) images with ⟨calls3, terr⟩
            rw [hT] at h key
            cases terr with
            | some err =>
              obtain ⟨image, hi⟩ := key _ h rfl
              exact fin image hi
            | none =>
              simp only at h
              cases hL2 : d.ImageList calls3 filterArgs with
              | error err =>
                simp only [hL2, List.mem_append, List.mem_singleton] at h
                rcases h with h1 | h1
                · obtain ⟨image, hi⟩ := key _ h1 rfl
                  exact fin image hi
                · cases h1
              | ok deletable =>
                simp only [hL2] at h
                have hmem : DaemonCall.ImageTag source ref ∈
                    (removeLoop d (calls3 ++ [.ImageList filterArgs]) deletable).1 := by
                  generalize hR : removeLoop d (calls3 ++ [.ImageList filterArgs]) deletable
                    = res at h ⊢
                  obtain ⟨calls5, rerr⟩ := res
                  cases rerr <;> simpa using h
                rcases removeLoop_mem d deletable _ _ hmem with h1 | ⟨im, _, h2⟩
                · rcases List.mem_append.mp h1 with h3 | h3
                  · obtain ⟨image, hi⟩ := key _ h3 rfl
                    exact fin image hi
                  · simp at h3
                · cases h2

theorem Build_tags_by_label_witness :
    ∃ ctx images image, (DockerBuilder.mk ["app:1"] [] (some NewContext)).context = some ctx ∧
      (Daemon.listing [⟨"sha256:1", [("build_tag", "other:2")]⟩]).ImageList
        [.ImageBuild ctx] filterArgs = .ok images ∧ image ∈ images ∧
      image.ID = "sha256:1" ∧ image.label "build_tag" = "other:2" ∧ "other:2" ≠ "" :=
  Build_tags_by_label (Daemon.listing [⟨"sha256:1", [("build_tag", "other:2")]⟩])
    (DockerBuilder.mk ["app:1"] [] (some NewContext)) "sha256:1" "other:2" (by decide)

/-! ## Theorems: fetching -/

theorem lookup_mapSet_self {α : Type} (m : List (String × α)) (key : String) (value : α) :
    (mapSet m key value).lookup key = some value := by
  unfold mapSet
  induction m with
  | nil => simp [List.lookup]
  | cons p rest ih =>
    obtain ⟨k, v⟩ := p
    by_cases hk : k = key
    · subst hk
      simp [List.lookup]
    · have hk2 : (key == k) = false := by
        simpa using fun h : key = k => hk h.symm
      by_cases hany : rest.any (fun p => p.1 = key)
      · simp only [hany, if_true] at ih
        simp [List.any_cons, hk, hany, List.lookup, hk2, ih]
      · simp only [hany] at ih
        simp only [Bool.false_eq_true, if_false] at ih
        simp [List.any_cons, hk, hany, List.lookup, hk2, ih]

/-- C7: the loop of `NewDockerBuilder` over the git map completes, and it
hands to the fetch of each declared repository, in order, the override when
the override is non-empty (the same for all repositories) and the
repository's own declared reference when the override is empty. -/
theorem fetch_references (w : World) (branchOverride : String) (db : DockerBuilder)
    (git : List (String × String)) :
    ∃ db1 fetches, fetchLoop w branchOverride db git = .ok (db1, fetches) ∧
      fetches.map (fun f => (f.repository, f.reference))
        = git.map (fun p => (p.1, if branchOverride ≠ "" then branchOverride else p.2)) ∧
      (branchOverride ≠ "" → ∀ f ∈ fetches, f.reference = branchOverride) ∧
      (branchOverride = "" → fetches.map (fun f => (f.repository, f.reference)) = git) := by
  induction git generalizing db with
  | nil => exact ⟨db, [], rfl, rfl, by simp, by simp⟩
  | cons p rest ih =>
    obtain ⟨repository, reference⟩ := p
    have hl := lookup_mapSet_self db.gitStore repository (GitStore.mk w.memfsNew)
    obtain ⟨db3, fetches, h1, h2, h3, h4⟩ := ih
      { db with gitStore := (mapSet (mapSet db.gitStore repository (GitStore.mk w.memfsNew))
          repository (GitStore.mk (w.gitClone w.memfsNew repository ("refs/heads/" ++
            (if branchOverride ≠ "" then branchOverride else reference))).1)) }
    refine ⟨db3, Fetch.mk repository
        (if branchOverride ≠ "" then branchOverride else reference)
        (errors.Wrap (errors.Wrap (w.gitClone w.memfsNew repository ("refs/heads/" ++
          (if branchOverride ≠ "" then branchOverride else reference))).2
          "Error cloning Git repository") ErrGetRepository) :: fetches, ?_, ?_, ?_, ?_⟩
    · simp only [fetchLoop, DockerBuilder.getRepositoryAtReference, hl, h1]
    · simp [h2]
    · intro ho f hf
      rcases List.mem_cons.mp hf with h5 | h5
      · subst h5; simp [ho]
      · exact h3 ho f h5
    · intro ho
      simp [h4 ho, ho]

/-! ## Theorems: folderFromGitURL -/

theorem splitChars_ne_nil (sep : Char) (s : List Char) : splitChars sep s ≠ [] := by
  cases s with
  | nil => simp [splitChars]
  | cons c cs =>
    unfold splitChars
    split
    · simp
    · split <;> simp

theorem splitChars_of_not_mem (sep : Char) (s : List Char) (h : sep ∉ s) :
    splitChars sep s = [s] := by
  induction s with
  | nil => rfl
  | cons c cs ih =>
    have hc : c ≠ sep := fun e => h (e ▸ List.mem_cons_self _ _)
    have hcs : sep ∉ cs := fun e => h (List.mem_cons_of_mem _ e)
    simp [splitChars, hc, ih hcs]

/-- Splitting distributes over a separator: the pieces of `a`, then the
pieces of `b`. -/
theorem splitChars_append_sep (sep : Char) (a b : List Char) :
    splitChars sep (a ++ sep :: b) = splitChars sep a ++ splitChars sep b := by
  induction a with
  | nil => simp [splitChars]
  | cons c cs ih =>
    by_cases hc : c = sep
    · simp [splitChars, hc, ih]
    · have hne := splitChars_ne_nil sep cs
      cases hs : splitChars sep cs with
      | nil => exact absurd hs hne
      | cons q qs =>
        simp [splitChars, hc, ih, hs]

theorem getLastD_split_append_sep (a n : List Char) (h : '/' ∉ n) (d : String) :
    ((splitChars '/' (a ++ '/' :: n)).map String.mk).getLastD d = ⟨n⟩ := by
  rw [splitChars_append_sep, splitChars_of_not_mem _ _ h]
  simp [List.getLastD_eq_getLast?]

theorem TrimSuffix_append (s suffix : String) :
    strings.TrimSuffix (s ++ suffix) suffix = s := by
  have h : strings.HasSuffix (s ++ suffix) suffix = true := by
    simp [strings.HasSuffix, List.isSuffixOf_iff_suffix, String.data_append]
  unfold strings.TrimSuffix
  rw [if_pos h]
  simp [String.data_append]

theorem TrimSuffix_of_not_HasSuffix (s suffix : String)
    (h : strings.HasSuffix s suffix = false) : strings.TrimSuffix s suffix = s := by
  simp [strings.TrimSuffix, h]

/-- The folder of a URL whose last slash is followed by `name`, a string
without slash. -/
theorem folderFromGitURL_last (table : Char → Char) (front name : String)
    (h : '/' ∉ name.data) :
    folderFromGitURL table (front ++ "/" ++ name)
      = strings.ToLower table (strings.TrimSuffix name ".git") := by
  unfold folderFromGitURL strings.Split
  have hd : (front ++ "/" ++ name).data = front.data ++ '/' :: name.data := by
    simp [String.data_append]
  simp only [hd]
  rw [getLastD_split_append_sep _ _ h]

/-- C5 as stated fails: `r.GIT` contains no slash and does not end in `.git`,
and `r.git` equals it up to letter case, yet the URL `http://h/o/r.git` gives
the folder `r`, not the lower-cased name `r.git` that `git@h:o/r.git.git`
gives. -/
theorem folderFromGitURL_suffix_case :
    '/' ∉ "r.GIT".data ∧ strings.HasSuffix "r.GIT" ".git" = false ∧
    strings.ToLower id "r.git" = strings.ToLower id "r.GIT" ∧
    folderFromGitURL id ("http://" ++ "h" ++ "/" ++ "o" ++ "/" ++ "r.git") = "r" ∧
    folderFromGitURL id ("git@" ++ "h" ++ ":" ++ "o" ++ "/" ++ "r.git" ++ ".git") = "r.git" ∧
    strings.ToLower id "r.GIT" = "r.git" := by
  decide

/-- C5, amended: for every host, owner and repository names `n` and `n1`
equal up to letter case, where `n1` contains no slash and does not end in
`.git`, `folderFromGitURL` returns the lower-cased `n` for each of the URLs
`http://h/o/n1`, `https://h/o/n1` and `git@h:o/n1.git`. -/
theorem folderFromGitURL_formats (table : Char → Char) (h o n n1 : String)
    (hslash : '/' ∉ n1.data) (hgit : strings.HasSuffix n1 ".git" = false)
    (hcase : strings.ToLower table n1 = strings.ToLower table n) :
    folderFromGitURL table ("http://" ++ h ++ "/" ++ o ++ "/" ++ n1)
      = strings.ToLower table n ∧
    folderFromGitURL table ("https://" ++ h ++ "/" ++ o ++ "/" ++ n1)
      = strings.ToLower table n ∧
    folderFromGitURL table ("git@" ++ h ++ ":" ++ o ++ "/" ++ n1 ++ ".git")
      = strings.ToLower table n := by
  have hslash2 : '/' ∉ (n1 ++ ".git").data := by
    simp only [String.data_append, List.mem_append, not_or]
    exact ⟨hslash, by decide⟩
  refine ⟨?_, ?_, ?_⟩
  · rw [folderFromGitURL_last table _ n1 hslash, TrimSuffix_of_not_HasSuffix _ _ hgit, hcase]
  · rw [folderFromGitURL_last table _ n1 hslash, TrimSuffix_of_not_HasSuffix _ _ hgit, hcase]
  · rw [String.append_assoc _ n1 ".git", folderFromGitURL_last table _ _ hslash2,
      TrimSuffix_append, hcase]

theorem folderFromGitURL_formats_witness :
    folderFromGitURL id ("http://" ++ "github.com" ++ "/" ++ "Owner" ++ "/" ++ "Repository")
      = strings.ToLower id "repository" ∧
    folderFromGitURL id ("https://" ++ "github.com" ++ "/" ++ "Owner" ++ "/" ++ "Repository")
      = strings.ToLower id "repository" ∧
    folderFromGitURL id ("git@" ++ "github.com" ++ ":" ++ "Owner" ++ "/" ++ "Repository" ++ ".git")
      = strings.ToLower id "repository" :=
  folderFromGitURL_formats id "github.com" "Owner" "repository" "Repository"
    (by decide) (by decide) (by decide)

/-- C2 fails on the code: the matrix declares `https://h/o/r` at `main`, the
clone fails (the goroutine returns its wrapped error, which nothing receives)
and leaves a root directory in the store; `NewDockerBuilder` still returns a
builder, whose sealed context holds the Dockerfile and the folder `r`, and
`Builder.Build` submits that context to the daemon and ends without error. -/
theorem NewDockerBuilder_swallows_fetch_error :
    (NewDockerBuilderTraced World.cloneFails 1 Builder.oneRepository.buildMatrix
        Builder.oneRepository.dockerfile "t" "").toOption.map (fun r => (r.1.context, r.2))
      = some (some ⟨[⟨⟨"Dockerfile", 0o600, 5, 0⟩, [70, 82, 79, 77, 10]⟩,
                     ⟨⟨"r", 0, 0, 53⟩, []⟩], true⟩,
              [⟨"https://h/o/r", "main", some ⟨"Error getting repository at reference: " ++
                "Error cloning Git repository: repository not found"⟩⟩]) ∧
    (NewDockerBuilder World.cloneFails 1 Builder.oneRepository.buildMatrix
        Builder.oneRepository.dockerfile "t" "").toOption.isSome = true ∧
    (Builder.oneRepository.Build World.cloneFails (Daemon.listing []) 1 "t" "").1
      = [.ImageBuild ⟨[⟨⟨"Dockerfile", 0o600, 5, 0⟩, [70, 82, 79, 77, 10]⟩,
                       ⟨⟨"r", 0, 0, 53⟩, []⟩], true⟩,
         .ImageList [("label", "build_tag"), ("dangling", "true")],
         .ImageList [("label", "build_tag"), ("dangling", "true")]] ∧
    (Builder.oneRepository.Build World.cloneFails (Daemon.listing []) 1 "t" "").2.toOption
      = some () := by
  refine ⟨by decide, by decide, by decide, by decide⟩

/-! ## Theorems: what context assembly appends -/

theorem Extends.refl (Q : String → Prop) (es : List ArchiveEntry) : Extends Q es es :=
  ⟨[], by simp, by simp⟩

theorem Extends.trans {Q : String → Prop} {a b c : List ArchiveEntry}
    (h1 : Extends Q a b) (h2 : Extends Q b c) : Extends Q a c := by
  obtain ⟨x, hx, hqx⟩ := h1
  obtain ⟨y, hy, hqy⟩ := h2
  refine ⟨x ++ y, by rw [hy, hx, List.append_assoc], ?_⟩
  intro e he
  rcases List.mem_append.mp he with h | h
  · exact hqx e h
  · exact hqy e h

theorem Extends.single {Q : String → Prop} (es : List ArchiveEntry) (e : ArchiveEntry)
    (h : Q e.header.Name) : Extends Q es (es ++ [e]) :=
  ⟨[e], rfl, by simpa using h⟩

theorem AddFile_ok (w : World) (c c1 : Context) (name : String) (content : Bytes)
    (h : c.AddFile w name content = .ok c1) :
    c1.entries = c.entries ++ [⟨⟨name, 0o600, content.length, 0⟩, content⟩] ∧
      c1.closed = c.closed := by
  unfold Context.AddFile at h
  cases h1 : w.tarWriteHeader c ⟨name, 0o600, content.length, 0⟩ with
  | some err => simp [h1] at h
  | none =>
    cases h2 : w.tarWrite c ⟨name, 0o600, content.length, 0⟩ content with
    | some err => simp [h1, h2] at h
    | none =>
      simp only [h1, h2] at h
      injection h with h
      subst h
      exact ⟨rfl, rfl⟩

theorem addFile_extends (Q : String → Prop) (w : World) (db db1 : DockerBuilder)
    (dir filePath : String) (hq : Q (filepath.Join [dir, filepath.Base filePath]))
    (h : db.addFile w dir filePath = .ok db1) :
    Extends Q db.entries db1.entries ∧ db1.gitStore = db.gitStore := by
  unfold DockerBuilder.addFile at h
  cases h1 : w.ReadFile filePath with
  | error err => simp [h1] at h
  | ok content =>
    cases h2 : db.context with
    | none => simp [h1, h2] at h
    | some ctx =>
      cases h3 : ctx.AddFile w (filepath.Join [dir, filepath.Base filePath]) content with
      | error err => simp [h1, h2, h3] at h
      | ok ctx1 =>
        simp only [h1, h2, h3] at h
        injection h with h
        subst h
        have h4 := (AddFile_ok w ctx ctx1 _ content h3).1
        refine ⟨?_, rfl⟩
        simp only [DockerBuilder.entries, h2, h4]
        exact Extends.single _ _ hq

theorem addDirFiles_extends (Q : String → Prop) (w : World) (filePath : String)
    (files : List FileInfo) (db db1 : DockerBuilder)
    (hq : ∀ f ∈ files, Q (filepath.Join [filepath.Base filePath,
      filepath.Base (filepath.Join [filePath, f.Name])]))
    (h : addDirFiles w filePath db files = .ok db1) :
    Extends Q db.entries db1.entries ∧ db1.gitStore = db.gitStore := by
  induction files generalizing db with
  | nil =>
    simp only [addDirFiles] at h
    injection h with h
    subst h
    exact ⟨Extends.refl _ _, rfl⟩
  | cons f rest ih =>
    unfold addDirFiles at h
    cases h1 : db.addFile w (filepath.Base filePath) (filepath.Join [filePath, f.Name]) with
    | error a => cases a <;> simp [h1] at h
    | ok db2 =>
      simp only [h1] at h
      have e1 := addFile_extends Q w db db2 _ _ (hq f (List.mem_cons_self _ _)) h1
      have e2 := ih db2 (fun g hg => hq g (List.mem_cons_of_mem _ hg)) h
      exact ⟨e1.1.trans e2.1, e2.2.trans e1.2⟩

theorem addLocalPath_extends (Q : String → Prop) (w : World) (db db1 : DockerBuilder)
    (filePath : String)
    (hq : ∀ expanded, expandHome w filePath = .ok expanded →
      Q (filepath.Join ["", filepath.Base expanded]) ∧
      ∀ files, w.ioReadDir expanded = .ok files → ∀ f ∈ files,
        Q (filepath.Join [filepath.Base expanded,
          filepath.Base (filepath.Join [expanded, f.Name])]))
    (h : addLocalPath w db filePath = .ok db1) :
    Extends Q db.entries db1.entries ∧ db1.gitStore = db.gitStore := by
  unfold addLocalPath at h
  cases h0 : expandHome w filePath with
  | error a => simp [h0] at h
  | ok expanded =>
    obtain ⟨hq1, hq2⟩ := hq expanded h0
    cases h1 : w.osStat expanded with
    | error err => simp [h0, h1] at h
    | ok fileInfo =>
      simp only [h0, h1] at h
      by_cases hd : fileInfo.IsDir = true
      · simp only [hd, if_true] at h
        cases h2 : w.ioReadDir expanded with
        | error err => simp [h2] at h
        | ok files =>
          simp only [h2] at h
          exact addDirFiles_extends Q w expanded files db db1 (hq2 files h2) h
      · simp only [hd] at h
        cases h2 : db.addFile w "" expanded with
        | error a => cases a <;> simp [h2] at h
        | ok db2 =>
          simp only [h2, Bool.false_eq_true, if_false] at h
          injection h with h
          subst h
          exact addFile_extends Q w db db2 _ _ hq1 h2

theorem addLocalPaths_extends (Q : String → Prop) (w : World) (files : List String)
    (db db1 : DockerBuilder)
    (hq : ∀ filePath ∈ files, ∀ expanded, expandHome w filePath = .ok expanded →
      Q (filepath.Join ["", filepath.Base expanded]) ∧
      ∀ children, w.ioReadDir expanded = .ok children → ∀ f ∈ children,
        Q (filepath.Join [filepath.Base expanded,
          filepath.Base (filepath.Join [expanded, f.Name])]))
    (h : addLocalPaths w db files = .ok db1) :
    Extends Q db.entries db1.entries ∧ db1.gitStore = db.gitStore := by
  induction files generalizing db with
  | nil =>
    simp only [addLocalPaths] at h
    injection h with h
    subst h
    exact ⟨Extends.refl _ _, rfl⟩
  | cons filePath rest ih =>
    unfold addLocalPaths at h
    cases h1 : addLocalPath w db filePath with
    | error a => simp [h1] at h
    | ok db2 =>
      simp only [h1] at h
      have e1 := addLocalPath_extends Q w db db2 filePath
        (hq filePath (List.mem_cons_self _ _)) h1
      have e2 := ih db2 (fun g hg => hq g (List.mem_cons_of_mem _ hg)) h
      exact ⟨e1.1.trans e2.1, e2.2.trans e1.2⟩

theorem addChildren_extends (Q : String → Prop)
    (walk : Context → String → Except Abort Context) (path : String)
    (files : List FileInfo) (c c1 : Context)
    (hw : ∀ f ∈ files, ∀ c2 c3, walk c2 (filepath.Join [path, f.Name]) = .ok c3 →
      Extends Q c2.entries c3.entries)
    (h : addChildren walk path c files = .ok c1) :
    Extends Q c.entries c1.entries := by
  induction files generalizing c with
  | nil =>
    simp only [addChildren] at h
    injection h with h
    subst h
    exact Extends.refl _ _
  | cons f rest ih =>
    unfold addChildren at h
    cases h1 : walk c (filepath.Join [path, f.Name]) with
    | error a => cases a <;> simp [h1] at h
    | ok c2 =>
      simp only [h1] at h
      exact (hw f (List.mem_cons_self _ _) c c2 h1).trans
        (ih c2 (fun g hg => hw g (List.mem_cons_of_mem _ hg)) h)

/-- Every entry `AddFilesystem` appends has the archive path
`filepath.Join(prefix, q)` for a path `q` reached from the start path through
directory listings; `I` is any property of paths kept by that step. -/
theorem AddFilesystem_extends (Q I : String → Prop) (w : World) (fs : BillyFS)
    (pfx : String) (hI : ∀ q, I q → Q (filepath.Join [pfx, q]))
    (hstep : ∀ q files, I q → fs.ReadDir q = .ok files → ∀ f ∈ files,
      I (filepath.Join [q, f.Name]))
    (fuel : Nat) (c c1 : Context) (path : String) (hp : I path)
    (h : c.AddFilesystem w fs pfx fuel path = .ok c1) :
    Extends Q c.entries c1.entries := by
  induction fuel generalizing c c1 path with
  | zero => simp [Context.AddFilesystem] at h
  | succ fuel ih =>
    unfold Context.AddFilesystem at h
    cases h1 : fs.Stat path with
    | error err => simp [h1] at h
    | ok info =>
      cases h2 : w.tarFileInfoHeader info path with
      | error err => simp [h1, h2] at h
      | ok header0 =>
        cases h3 : w.tarWriteHeader c { header0 with Name := filepath.Join [pfx, path] } with
        | some err => simp [h1, h2, h3] at h
        | none =>
          simp only [h1, h2, h3] at h
          have hname : Q (filepath.Join [pfx, path]) := hI path hp
          by_cases hd : info.IsDir = true
          · simp only [hd, if_true] at h
            cases h4 : fs.ReadDir path with
            | error err => simp [h4] at h
            | ok files =>
              simp only [h4] at h
              have e1 : Extends Q c.entries (c.entries ++
                  [⟨{ header0 with Name := filepath.Join [pfx, path] }, []⟩]) :=
                Extends.single _ _ hname
              refine e1.trans (addChildren_extends Q _ path files _ c1 ?_ h)
              intro f hf c2 c3 hw
              exact ih c2 c3 _ (hstep path files hp h4 f hf) hw
          · simp only [hd, Bool.false_eq_true, if_false] at h
            by_cases ht : header0.Typeflag = tar.TypeReg
            · simp only [ht, if_true] at h
              cases h4 : fs.Open path with
              | error err => simp [h4] at h
              | ok file =>
                simp only [h4] at h
                split at h
                · split at h
                  · simp at h
                  · split at h
                    · simp at h
                    · injection h with h
                      subst h
                      exact Extends.single _ _ hname
                · split at h
                  · simp at h
                  · injection h with h
                    subst h
                    exact Extends.single _ _ hname
            · simp only [ht, if_false] at h
              injection h with h
              subst h
              exact Extends.single _ _ hname

theorem addStores_extends (Q : String → Prop) (I : String → String → Prop) (w : World)
    (fuel : Nat) (stores : List (String × GitStore)) (c c1 : Context)
    (hstart : ∀ p ∈ stores, I p.1 ".")
    (hI : ∀ p ∈ stores, ∀ q, I p.1 q → Q (filepath.Join [folderFromGitURL w.lowerTable p.1, q]))
    (hstep : ∀ p ∈ stores, ∀ q files, I p.1 q → p.2.fs.ReadDir q = .ok files → ∀ f ∈ files,
      I p.1 (filepath.Join [q, f.Name]))
    (h : addStores w fuel c stores = .ok c1) :
    Extends Q c.entries c1.entries := by
  induction stores generalizing c with
  | nil =>
    simp only [addStores] at h
    injection h with h
    subst h
    exact Extends.refl _ _
  | cons p rest ih =>
    obtain ⟨key, store⟩ := p
    unfold addStores at h
    cases h1 : c.AddFilesystem w store.fs (folderFromGitURL w.lowerTable key) fuel "." with
    | error a => cases a <;> simp [h1] at h
    | ok c2 =>
      simp only [h1] at h
      have e1 := AddFilesystem_extends Q (I key) w store.fs _
        (hI (key, store) (List.mem_cons_self _ _))
        (hstep (key, store) (List.mem_cons_self _ _)) fuel c c2 "."
        (hstart (key, store) (List.mem_cons_self _ _)) h1
      exact e1.trans (ih c2 (fun q hq => hstart q (List.mem_cons_of_mem _ hq))
        (fun q hq => hI q (List.mem_cons_of_mem _ hq))
        (fun q hq => hstep q (List.mem_cons_of_mem _ hq)) h)

/-- The context assembled by `getDockerContextFromFilesystem`: it is sealed,
its first entry is the Dockerfile with the build-file bytes, and every further
entry comes from a listed local path or from a walk of a repository store. -/
theorem getDockerContext_entries (Q : String → Prop) (I : String → String → Prop)
    (w : World) (fuel : Nat) (db db1 : DockerBuilder) (dockerfile : Bytes)
    (files : List String)
    (hlocal : ∀ filePath ∈ files, ∀ expanded, expandHome w filePath = .ok expanded →
      Q (filepath.Join ["", filepath.Base expanded]) ∧
      ∀ children, w.ioReadDir expanded = .ok children → ∀ f ∈ children,
        Q (filepath.Join [filepath.Base expanded,
          filepath.Base (filepath.Join [expanded, f.Name])]))
    (hstart : ∀ p ∈ db.gitStore, I p.1 ".")
    (hI : ∀ p ∈ db.gitStore, ∀ q, I p.1 q →
      Q (filepath.Join [folderFromGitURL w.lowerTable p.1, q]))
    (hstep : ∀ p ∈ db.gitStore, ∀ q children, I p.1 q → p.2.fs.ReadDir q = .ok children →
      ∀ f ∈ children, I p.1 (filepath.Join [q, f.Name]))
    (h : db.getDockerContextFromFilesystem w fuel dockerfile files = .ok db1) :
    ∃ ctx extra, db1.context = some ctx ∧ ctx.closed = true ∧
      ctx.entries = ⟨⟨Dockerfile, 0o600, dockerfile.length, 0⟩, dockerfile⟩ :: extra ∧
      ∀ e ∈ extra, Q e.header.Name := by
  unfold DockerBuilder.getDockerContextFromFilesystem at h
  cases h1 : NewContext.AddFile w Dockerfile dockerfile with
  | error err => simp [h1] at h
  | ok ctx =>
    simp only [h1] at h
    have e0 := (AddFile_ok w _ _ _ _ h1).1
    simp only [NewContext, List.nil_append] at e0
    cases h2 : addLocalPaths w { db with context := some ctx } files with
    | error a => simp [h2] at h
    | ok db2 =>
      simp only [h2] at h
      obtain ⟨e1, hg⟩ := addLocalPaths_extends Q w files _ db2 hlocal h2
      simp only at hg
      cases h3 : db2.context with
      | none => simp [h3] at h
      | some ctx1 =>
        simp only [h3] at h
        simp only [DockerBuilder.entries, h3] at e1
        rw [hg] at h
        cases h4 : addStores w fuel ctx1 db.gitStore with
        | error a => simp [h4] at h
        | ok ctx2 =>
          simp only [h4] at h
          have e2 := addStores_extends Q I w fuel db.gitStore ctx1 ctx2 hstart hI hstep h4
          cases h5 : ctx2.Close w with
          | error err => simp [h5] at h
          | ok ctx3 =>
            simp only [h5] at h
            injection h with h
            subst h
            have h6 : ctx3 = { ctx2 with closed := true } := by
              unfold Context.Close at h5
              cases h7 : w.tarClose ctx2 with
              | some err => simp [h7] at h5
              | none =>
                simp only [h7] at h5
                injection h5 with h5
                exact h5.symm
            obtain ⟨extra, hx, hqx⟩ := e1.trans e2
            refine ⟨ctx3, extra, rfl, by rw [h6], ?_, hqx⟩
            rw [h6]
            simp only [hx, e0, List.singleton_append]

/-! ## Theorems: the Dockerfile entry -/

/-- C6 as stated fails: with the local file `Dockerfile` listed in the build
matrix, assembly succeeds and the context holds two entries whose archive path
is `Dockerfile`. -/
theorem getDockerContext_two_Dockerfiles :
    (DockerBuilder.noStores.getDockerContextFromFilesystem World.localDockerfile 0
        [70, 82, 79, 77, 10] ["Dockerfile"]).toOption.map
      (fun db => db.entries.map (fun e => e.header.Name)) = some ["Dockerfile", "Dockerfile"] ∧
    (DockerBuilder.noStores.getDockerContextFromFilesystem World.localDockerfile 0
        [70, 82, 79, 77, 10] ["Dockerfile"]).toOption.map
      (fun db => (db.entries.filter (fun e => e.header.Name = Dockerfile)).length) = some 2 := by
  refine ⟨by decide, by decide⟩

/-- C6, amended: when `getDockerContextFromFilesystem` succeeds, the context is
sealed and its first entry has the archive path `Dockerfile` and holds the
build-file bytes, so at least one entry has that path, whatever local files
and repositories are included; with an empty file list and no repositories
that entry is the only entry. -/
theorem getDockerContext_has_Dockerfile (w : World) (fuel : Nat) (db db1 : DockerBuilder)
    (dockerfile : Bytes) (files : List String)
    (h : db.getDockerContextFromFilesystem w fuel dockerfile files = .ok db1) :
    ∃ ctx extra, db1.context = some ctx ∧ ctx.closed = true ∧
      ctx.entries = ⟨⟨Dockerfile, 0o600, dockerfile.length, 0⟩, dockerfile⟩ :: extra ∧
      1 ≤ (ctx.entries.filter (fun e => e.header.Name = Dockerfile)).length ∧
      (files = [] → db.gitStore = [] → extra = []) := by
  obtain ⟨ctx, extra, h1, h2, h3, _⟩ :=
    getDockerContext_entries (fun _ => True) (fun _ _ => True) w fuel db db1 dockerfile files
      (fun _ _ _ _ => ⟨trivial, fun _ _ _ _ => trivial⟩) (fun _ _ => trivial)
      (fun _ _ _ _ => trivial) (fun _ _ _ _ _ _ _ _ => trivial) h
  refine ⟨ctx, extra, h1, h2, h3, ?_, ?_⟩
  · rw [h3]
    simp [List.filter_cons]
  · intro hf hg
    subst hf
    obtain ⟨ctx2, extra2, g1, _, g3, g4⟩ :=
      getDockerContext_entries (fun _ => False) (fun _ _ => True) w fuel db db1 dockerfile []
        (fun _ hx => absurd hx (List.not_mem_nil _)) (fun _ _ => trivial)
        (fun p hp => by rw [hg] at hp; exact absurd hp (List.not_mem_nil _))
        (fun _ _ _ _ _ _ _ _ => trivial) h
    rw [h1] at g1
    injection g1 with g1
    subst g1
    rw [h3] at g3
    injection g3 with _ g5
    subst g5
    cases extra with
    | nil => rfl
    | cons e es => exact (g4 e (List.mem_cons_self _ _)).elim

theorem getDockerContext_has_Dockerfile_witness :
    ∃ ctx extra,
      (DockerBuilder.mk ["t"] []
        (some ⟨[⟨⟨"Dockerfile", 0o600, 5, 0⟩, [70, 82, 79, 77, 10]⟩,
                ⟨⟨"Dockerfile", 0o600, 4, 0⟩, [70, 82, 79, 77]⟩], true⟩)).context = some ctx ∧
      ctx.closed = true ∧
      ctx.entries = ⟨⟨Dockerfile, 0o600, ([70, 82, 79, 77, 10] : Bytes).length, 0⟩,
        [70, 82, 79, 77, 10]⟩ :: extra ∧
      1 ≤ (ctx.entries.filter (fun e => e.header.Name = Dockerfile)).length ∧
      (["Dockerfile"] = ([] : List String) → DockerBuilder.noStores.gitStore = [] → extra = []) :=
  getDockerContext_has_Dockerfile World.localDockerfile 0 DockerBuilder.noStores
    (DockerBuilder.mk ["t"] []
      (some ⟨[⟨⟨"Dockerfile", 0o600, 5, 0⟩, [70, 82, 79, 77, 10]⟩,
              ⟨⟨"Dockerfile", 0o600, 4, 0⟩, [70, 82, 79, 77]⟩], true⟩))
    [70, 82, 79, 77, 10] ["Dockerfile"] rfl

/-! ## Theorems: archive paths -/

/-- C9 as stated fails: with the directory `..` listed in the build matrix,
assembly succeeds and the file `x` of that directory enters the archive under
the path `../x`, which leaves the context root. -/
theorem getDockerContext_parent_escapes :
    (DockerBuilder.noStores.getDockerContextFromFilesystem World.parentDir 0
        [70, 82, 79, 77, 10] [".."]).toOption.map
      (fun db => db.entries.map (fun e => e.header.Name)) = some ["Dockerfile", "../x"] ∧
    escapesRoot "../x" = true := by
  refine ⟨by decide, by decide⟩

/-! ### Paths that stay below the root -/

theorem splitChars_no_sep (sep : Char) (p : List Char) :
    ∀ e ∈ splitChars sep p, sep ∉ e := by
  induction p with
  | nil => simp [splitChars]
  | cons c cs ih =>
    unfold splitChars
    by_cases hc : c = sep
    · simp only [hc, if_true]
      intro e he
      rcases List.mem_cons.mp he with h | h
      · subst h; simp
      · exact ih e h
    · simp only [hc, if_false]
      cases hs : splitChars sep cs with
      | nil => simp [Ne.symm hc]
      | cons q qs =>
        rw [hs] at ih
        intro e he
        rcases List.mem_cons.mp he with h | h
        · subst h
          have hq := ih q (List.mem_cons_self _ _)
          simp [Ne.symm hc, hq]
        · exact ih e (List.mem_cons_of_mem _ h)

theorem splitChars_joinElems (es : List (List Char)) (hne : es ≠ [])
    (h : ∀ e ∈ es, '/' ∉ e) : splitChars '/' (joinElems es) = es := by
  induction es with
  | nil => exact absurd rfl hne
  | cons e rest ih =>
    cases rest with
    | nil =>
      simp only [joinElems]
      exact splitChars_of_not_mem _ _ (h e (List.mem_cons_self _ _))
    | cons e2 rest2 =>
      simp only [joinElems]
      rw [splitChars_append_sep, splitChars_of_not_mem _ _ (h e (List.mem_cons_self _ _)),
        ih (by simp) (fun x hx => h x (List.mem_cons_of_mem _ hx))]
      rfl

theorem foldl_cleanStep_no_dotdot (rooted : Bool) (es acc : List (List Char))
    (h : dotdot ∉ es) : es.foldl (cleanStep rooted) acc = es.reverse ++ acc := by
  induction es generalizing acc with
  | nil => rfl
  | cons e rest ih =>
    have he : e ≠ dotdot := fun x => h (x ▸ List.mem_cons_self _ _)
    have hr : dotdot ∉ rest := fun x => h (List.mem_cons_of_mem _ x)
    simp [List.foldl_cons, cleanStep, he, ih _ hr]

theorem mem_pathElems {p e : List Char} (h : e ∈ pathElems p) :
    e ∈ splitChars '/' p ∧ e ≠ [] ∧ e ≠ ['.'] ∧ '/' ∉ e := by
  unfold pathElems at h
  rw [List.mem_filter] at h
  obtain ⟨h1, h2⟩ := h
  have h3 : e ≠ [] ∧ e ≠ ['.'] := by simpa using h2
  exact ⟨h1, h3.1, h3.2, splitChars_no_sep _ _ e h1⟩

theorem cleanElems_no_dotdot (rooted : Bool) (p : List Char)
    (h : dotdot ∉ splitChars '/' p) : cleanElems rooted p = pathElems p := by
  have h1 : dotdot ∉ pathElems p := fun x => h (mem_pathElems x).1
  simp [cleanElems, foldl_cleanStep_no_dotdot rooted _ [] h1]

theorem joinElems_head (e : List Char) (rest : List (List Char)) (he : e ≠ []) :
    (joinElems (e :: rest)).head? = e.head? := by
  cases e with
  | nil => exact absurd rfl he
  | cons c cs =>
    cases rest <;> simp [joinElems]

theorem cleanChars_ne_nil (p : List Char) : cleanChars p ≠ [] := by
  unfold cleanChars
  cases p with
  | nil => simp
  | cons c cs =>
    simp only
    split
    · simp
    · split <;> simp_all

/-- A relative path without `..` element cleans to a relative path without
`..` element. -/
theorem cleanChars_safe (p : List Char) (hrel : p.head? ≠ some '/')
    (hdd : dotdot ∉ splitChars '/' p) :
    (cleanChars p).head? ≠ some '/' ∧ dotdot ∉ splitChars '/' (cleanChars p) := by
  cases p with
  | nil => exact ⟨by decide, by decide⟩
  | cons c cs =>
    have hc : c ≠ '/' := by simpa using hrel
    have hce := cleanElems_no_dotdot false (c :: cs) hdd
    unfold cleanChars
    simp only [hc, decide_False, hce, Bool.false_eq_true, if_false]
    cases hes : pathElems (c :: cs) with
    | nil => exact ⟨by decide, by decide⟩
    | cons e rest =>
      have hmem : ∀ x ∈ e :: rest, x ∈ pathElems (c :: cs) := by
        intro x hx; rw [hes]; exact hx
      have he := mem_pathElems (hmem e (List.mem_cons_self _ _))
      have hbody : joinElems (e :: rest) ≠ [] := by
        intro hb
        have := joinElems_head e rest he.2.1
        rw [hb] at this
        cases e with
        | nil => exact he.2.1 rfl
        | cons a as => simp at this
      rw [if_neg hbody]
      constructor
      · rw [joinElems_head e rest he.2.1]
        cases e with
        | nil => exact absurd rfl he.2.1
        | cons a as =>
          intro hx
          have ha : a = '/' := by simpa using hx
          exact he.2.2.2 (ha ▸ List.mem_cons_self _ _)
      · rw [splitChars_joinElems _ (by simp) (fun x hx => (mem_pathElems (hmem x hx)).2.2.2)]
        intro hx
        exact hdd (mem_pathElems (hmem _ hx)).1

theorem takeWhile_append_stop {α : Type} (q : α → Bool) (xs ys : List α) (y : α)
    (hxs : ∀ x ∈ xs, q x = true) (hy : q y = false) :
    (xs ++ y :: ys).takeWhile q = xs := by
  induction xs with
  | nil => simp [List.takeWhile, hy]
  | cons x rest ih =>
    simp [List.takeWhile, hxs x (List.mem_cons_self _ _),
      ih (fun z hz => hxs z (List.mem_cons_of_mem _ hz))]

theorem takeWhile_all {α : Type} (q : α → Bool) (xs : List α)
    (hxs : ∀ x ∈ xs, q x = true) : xs.takeWhile q = xs := by
  induction xs with
  | nil => rfl
  | cons x rest ih =>
    simp [List.takeWhile, hxs x (List.mem_cons_self _ _),
      ih (fun z hz => hxs z (List.mem_cons_of_mem _ hz))]

/-- The base of a path that ends in the element `n`. -/
theorem baseChars_last (p n : List Char) (hn : n ≠ []) (hns : '/' ∉ n)
    (hp : p = n ∨ ∃ z, p = z ++ '/' :: n) : baseChars p = n := by
  have hq : ∀ x ∈ n.reverse, (decide (x ≠ '/')) = true := by
    intro x hx
    have : x ∈ n := List.mem_reverse.mp hx
    simpa using fun e : x = '/' => hns (e ▸ this)
  obtain ⟨a, as, hrev⟩ : ∃ a as, n.reverse = a :: as := by
    cases hr : n.reverse with
    | nil => exact absurd (List.reverse_eq_nil_iff.mp hr) hn
    | cons a as => exact ⟨a, as, rfl⟩
  have ha : a ≠ '/' := by
    have : a ∈ n := List.mem_reverse.mp (hrev ▸ List.mem_cons_self _ _)
    exact fun e => hns (e ▸ this)
  have hprev : ∃ tail, p.reverse = n.reverse ++ tail ∧
      (tail = [] ∨ ∃ t, tail = '/' :: t) := by
    rcases hp with h | ⟨z, h⟩
    · exact ⟨[], by simp [h], Or.inl rfl⟩
    · exact ⟨'/' :: z.reverse, by simp [h], Or.inr ⟨_, rfl⟩⟩
  obtain ⟨tail, hpr, htail⟩ := hprev
  have hpne : p ≠ [] := by
    intro e
    rw [e] at hpr
    simp [hrev] at hpr
  have hdrop : p.reverse.dropWhile (fun c => c = '/') = p.reverse := by
    rw [hpr, hrev]
    simp [List.dropWhile, ha]
  have htake : p.reverse.takeWhile (fun c => c ≠ '/') = n.reverse := by
    rw [hpr]
    rcases htail with h | ⟨t, h⟩
    · subst h
      rw [List.append_nil]
      exact takeWhile_all _ _ hq
    · subst h
      exact takeWhile_append_stop _ _ _ _ hq (by simp)
  unfold baseChars
  cases p with
  | nil => exact absurd rfl hpne
  | cons c cs =>
    simp only [hdrop, List.reverse_reverse, htake]
    simp [hn]

theorem baseChars_cases (p : List Char) :
    baseChars p = ['/'] ∨ ('/' ∉ baseChars p ∧ baseChars p ≠ []) := by
  unfold baseChars
  cases p with
  | nil => exact Or.inr ⟨by decide, by decide⟩
  | cons c cs =>
    simp only
    split
    · exact Or.inl rfl
    · rename_i hne
      refine Or.inr ⟨?_, hne⟩
      intro hmem
      have h1 := List.mem_reverse.mp hmem
      have h2 := List.mem_takeWhile_imp h1
      simp at h2

/-- The cleaned form of a path whose last element is a plain name ends in
that name. -/
theorem cleanChars_last (x n : List Char) (S : List (List Char))
    (hsplit : splitChars '/' x = S ++ [n]) (hn : n ≠ []) (hdot : n ≠ ['.'])
    (hdd : n ≠ dotdot) :
    cleanChars x = n ∨ ∃ z, cleanChars x = z ++ '/' :: n := by
  have hx : x ≠ [] := by
    intro e
    subst e
    simp only [splitChars] at hsplit
    cases S with
    | nil =>
      simp only [List.nil_append] at hsplit
      injection hsplit with h1 _
      exact hn h1.symm
    | cons a as =>
      have := congrArg List.length hsplit
      simp at this
  have hpe : ∀ rooted, ∃ A, cleanElems rooted x = A ++ [n] := by
    intro rooted
    unfold cleanElems pathElems
    rw [hsplit, List.filter_append, List.foldl_append]
    have hfn : List.filter (fun e => decide (e ≠ [] ∧ e ≠ ['.'])) [n] = [n] := by
      simp [List.filter, hn, hdot]
    rw [hfn]
    simp only [List.foldl_cons, List.foldl_nil]
    refine ⟨(List.foldl (cleanStep rooted) []
      (List.filter (fun e => decide (e ≠ [] ∧ e ≠ ['.'])) S)).reverse, ?_⟩
    simp [cleanStep, hdd]
  have hjoin : ∀ A : List (List Char),
      joinElems (A ++ [n]) = n ∨ ∃ z, joinElems (A ++ [n]) = z ++ '/' :: n := by
    intro A
    induction A with
    | nil => exact Or.inl rfl
    | cons a rest ih =>
      right
      have hcons : joinElems (a :: (rest ++ [n])) = a ++ '/' :: joinElems (rest ++ [n]) := by
        cases hr : rest ++ [n] with
        | nil => simp at hr
        | cons b bs => rfl
      rw [List.cons_append, hcons]
      rcases ih with h | ⟨z, h⟩
      · exact ⟨a, by rw [h]⟩
      · exact ⟨a ++ '/' :: z, by rw [h]; simp⟩
  unfold cleanChars
  cases x with
  | nil => exact absurd rfl hx
  | cons c cs =>
    simp only
    by_cases hc : c = '/'
    · obtain ⟨A, hA⟩ := hpe true
      simp only [hc, decide_True, if_true] at hA ⊢
      rw [hA]
      rcases hjoin A with h | ⟨z, h⟩
      · exact Or.inr ⟨[], by simp [h]⟩
      · exact Or.inr ⟨'/' :: z, by simp [h]⟩
    · obtain ⟨A, hA⟩ := hpe false
      simp only [hc, decide_False, Bool.false_eq_true, if_false, hA]
      have hne : joinElems (A ++ [n]) ≠ [] := by
        rcases hjoin A with h | ⟨z, h⟩
        · rw [h]; exact hn
        · rw [h]; simp
      rw [if_neg hne]
      exact hjoin A

theorem escapesRoot_eq_false (s : String) :
    escapesRoot s = false ↔
      s.data.head? ≠ some '/' ∧ dotdot ∉ splitChars '/' s.data := by
  unfold escapesRoot
  simp [Bool.or_eq_false_iff]

theorem string_ne_empty {a : String} (h : a ≠ "") : a.data ≠ [] := by
  intro e
  apply h
  cases a
  simp_all

theorem Join_of_ne (a b : String) (ha : a ≠ "") :
    filepath.Join [a, b] = ⟨cleanChars (a.data ++ '/' :: b.data)⟩ := by
  simp [filepath.Join, List.dropWhile, ha, filepath.Clean, joinElems]

theorem Join_empty_left (b : String) (hb : b ≠ "") :
    filepath.Join ["", b] = ⟨cleanChars b.data⟩ := by
  simp [filepath.Join, List.dropWhile, hb, filepath.Clean, joinElems]

/-- Joining a non-empty relative path to a second path, neither with a `..`
element, gives a non-empty relative path without `..` element. -/
theorem Join_props (a b : String) (ha : a ≠ "") (hrel : a.data.head? ≠ some '/')
    (hda : dotdot ∉ splitChars '/' a.data) (hdb : dotdot ∉ splitChars '/' b.data) :
    filepath.Join [a, b] ≠ "" ∧ (filepath.Join [a, b]).data.head? ≠ some '/' ∧
      dotdot ∉ splitChars '/' (filepath.Join [a, b]).data := by
  rw [Join_of_ne a b ha]
  have hne := string_ne_empty ha
  have h1 : (a.data ++ '/' :: b.data).head? ≠ some '/' := by
    cases hd : a.data with
    | nil => exact absurd hd hne
    | cons c cs => rw [hd] at hrel; simpa using hrel
  have h2 : dotdot ∉ splitChars '/' (a.data ++ '/' :: b.data) := by
    rw [splitChars_append_sep]
    simp [hda, hdb]
  have h3 := cleanChars_safe _ h1 h2
  refine ⟨?_, h3.1, h3.2⟩
  intro e
  have := congrArg String.data e
  exact cleanChars_ne_nil _ this

/-- The archive path `filepath.Join(a, b)` stays below the root when neither
element has a `..` element, `a` is relative, and `b` is relative in case `a`
is empty. -/
theorem Join_below (a b : String) (hrel : a.data.head? ≠ some '/')
    (hda : dotdot ∉ splitChars '/' a.data) (hdb : dotdot ∉ splitChars '/' b.data)
    (hb : a = "" → b.data.head? ≠ some '/') :
    escapesRoot (filepath.Join [a, b]) = false := by
  rw [escapesRoot_eq_false]
  by_cases ha : a = ""
  · subst ha
    by_cases hbe : b = ""
    · subst hbe
      exact ⟨by decide, by decide⟩
    · rw [Join_empty_left b hbe]
      exact cleanChars_safe _ (hb rfl) hdb
  · exact (Join_props a b ha hrel hda hdb).2

theorem no_slash_props (n : List Char) (hs : '/' ∉ n) (hdd : n ≠ dotdot) :
    n.head? ≠ some '/' ∧ dotdot ∉ splitChars '/' n := by
  constructor
  · cases n with
    | nil => simp
    | cons c cs =>
      intro h
      have hc : c = '/' := by simpa using h
      exact hs (hc ▸ List.mem_cons_self _ _)
  · rw [splitChars_of_not_mem _ _ hs]
    simpa using Ne.symm hdd

/-- The base name of a path, unless it is `/` or `..`, is a non-empty relative
name without `..` element. -/
theorem Base_props (p : String) (h1 : filepath.Base p ≠ "/") (h2 : filepath.Base p ≠ "..") :
    filepath.Base p ≠ "" ∧ (filepath.Base p).data.head? ≠ some '/' ∧
      dotdot ∉ splitChars '/' (filepath.Base p).data := by
  have hb : (filepath.Base p).data = baseChars p.data := rfl
  have g1 : baseChars p.data ≠ ['/'] := by
    intro e
    apply h1
    show String.mk (baseChars p.data) = _
    rw [e]
  have g2 : baseChars p.data ≠ dotdot := by
    intro e
    apply h2
    show String.mk (baseChars p.data) = _
    rw [e]; rfl
  rcases baseChars_cases p.data with h | ⟨h3, h4⟩
  · exact absurd h g1
  · rw [hb]
    refine ⟨?_, no_slash_props _ h3 g2⟩
    intro e
    have := congrArg String.data e
    exact h4 this

theorem plainName_props (name : String) (h : plainName name = true) :
    '/' ∉ name.data ∧ name.data ≠ [] ∧ name.data ≠ ['.'] ∧ name.data ≠ dotdot ∧ name ≠ "" := by
  unfold plainName at h
  simp only [Bool.and_eq_true, Bool.not_eq_true', bne_iff_ne, ne_eq] at h
  obtain ⟨⟨⟨h1, h2⟩, h3⟩, h4⟩ := h
  refine ⟨by simpa using h1, string_ne_empty h2, ?_, ?_, h2⟩
  · intro e
    apply h3
    cases name
    simp_all
  · intro e
    apply h4
    cases name
    simp_all [dotdot]

/-- The base of a path joined with a plain name is that name. -/
theorem Base_Join_plain (p name : String) (h : plainName name = true) :
    filepath.Base (filepath.Join [p, name]) = name := by
  obtain ⟨h1, h2, h3, h4, h5⟩ := plainName_props name h
  have key : ∀ x S, splitChars '/' x = S ++ [name.data] →
      filepath.Base ⟨cleanChars x⟩ = name := by
    intro x S hx
    show String.mk (baseChars (cleanChars x)) = name
    rw [baseChars_last _ name.data h2 h1 (cleanChars_last x name.data S hx h2 h3 h4)]
  by_cases hp : p = ""
  · subst hp
    rw [Join_empty_left name h5]
    exact key _ [] (by simp [splitChars_of_not_mem _ _ h1])
  · rw [Join_of_ne p name hp]
    exact key _ (splitChars '/' p.data)
      (by rw [splitChars_append_sep, splitChars_of_not_mem _ _ h1])

theorem unicode_ToLower_slash (table : Char → Char)
    (htable : ∀ c, 127 < c.toNat → table c ≠ '/') (c : Char)
    (h : unicode.ToLower table c = '/') : c = '/' := by
  unfold unicode.ToLower at h
  by_cases h1 : c.toNat ≤ 127
  · simp only [h1, if_true] at h
    by_cases h2 : 65 ≤ c.toNat ∧ c.toNat ≤ 90
    · simp only [h2, and_self, if_true] at h
      exfalso
      obtain ⟨h3, h4⟩ := h2
      generalize c.toNat = n at h h3 h4
      interval_cases n <;> revert h <;> decide
    · simpa [h2] using h
  · simp only [h1, if_false] at h
    exact absurd h (htable c (by omega))

/-- The folder derived from a URL holds no slash, as long as the Unicode case
tables map no rune to a slash. -/
theorem folderFromGitURL_no_slash (table : Char → Char)
    (htable : ∀ c, 127 < c.toNat → table c ≠ '/') (url : String) :
    '/' ∉ (folderFromGitURL table url).data := by
  unfold folderFromGitURL
  have hlast : '/' ∉ ((strings.Split url '/').getLastD "").data := by
    unfold strings.Split
    have hne := splitChars_ne_nil '/' url.data
    have hall := splitChars_no_sep '/' url.data
    generalize splitChars '/' url.data = l at hne hall
    have hmem : ∃ e ∈ l, (l.map String.mk).getLastD "" = ⟨e⟩ := by
      induction l with
      | nil => exact absurd rfl hne
      | cons a rest ih =>
        cases rest with
        | nil => exact ⟨a, List.mem_cons_self _ _, rfl⟩
        | cons b rest2 =>
          obtain ⟨e, he, h⟩ := ih (by simp) (fun x hx => hall x (List.mem_cons_of_mem _ hx))
          refine ⟨e, List.mem_cons_of_mem _ he, ?_⟩
          simpa [List.getLastD] using h
    obtain ⟨e, he, h⟩ := hmem
    rw [h]
    exact hall e he
  have htrim : '/' ∉ (strings.TrimSuffix ((strings.Split url '/').getLastD "") ".git").data := by
    unfold strings.TrimSuffix
    split
    · intro hx
      exact hlast (List.mem_of_mem_take hx)
    · exact hlast
  unfold strings.ToLower
  intro hx
  obtain ⟨c, hc, hcl⟩ := List.mem_map.mp hx
  have := unicode_ToLower_slash table htable c hcl
  exact htrim (this ▸ hc)

/-- C9, amended: when context assembly succeeds, every entry path of the
archive is archive-relative and has no `..` element, provided that no listed
local path has, after the `~/` expansion, the base name `..` or `/`, that the
names listed for the children of local directories and of repository
directories are plain (no slash, and none of the empty name, `.` and `..`),
that no repository URL gives the folder `..`, and that the Unicode case tables
map no rune to a slash. -/
theorem getDockerContext_paths_below_root (w : World) (fuel : Nat)
    (db db1 : DockerBuilder) (dockerfile : Bytes) (files : List String)
    (htable : ∀ c, 127 < c.toNat → w.lowerTable c ≠ '/')
    (hfiles : ∀ filePath ∈ files, ∀ expanded, expandHome w filePath = .ok expanded →
      filepath.Base expanded ≠ ".." ∧ filepath.Base expanded ≠ "/")
    (hdirs : ∀ p children, w.ioReadDir p = .ok children →
      ∀ f ∈ children, plainName f.Name = true)
    (hstores : ∀ p ∈ db.gitStore, folderFromGitURL w.lowerTable p.1 ≠ ".." ∧
      ∀ q children, p.2.fs.ReadDir q = .ok children →
        ∀ f ∈ children, plainName f.Name = true)
    (h : db.getDockerContextFromFilesystem w fuel dockerfile files = .ok db1) :
    ∀ e ∈ db1.entries, escapesRoot e.header.Name = false := by
  have hempty : ("" : String).data.head? ≠ some '/' ∧
      dotdot ∉ splitChars '/' ("" : String).data := ⟨by decide, by decide⟩
  obtain ⟨ctx, extra, h1, _, h3, h4⟩ :=
    getDockerContext_entries (fun n => escapesRoot n = false)
      (fun _ q => q ≠ "" ∧ q.data.head? ≠ some '/' ∧ dotdot ∉ splitChars '/' q.data)
      w fuel db db1 dockerfile files
      (by
        intro filePath hf expanded hex
        obtain ⟨g1, g2⟩ := hfiles filePath hf expanded hex
        obtain ⟨b1, b2, b3⟩ := Base_props expanded g2 g1
        refine ⟨Join_below _ _ hempty.1 hempty.2 b3 (fun _ => b2), ?_⟩
        intro children hch f hfc
        have hp := hdirs expanded children hch f hfc
        obtain ⟨n1, _, _, n4, _⟩ := plainName_props f.Name hp
        rw [Base_Join_plain expanded f.Name hp]
        exact Join_below _ _ b2 b3 (no_slash_props _ n1 n4).2 (fun e => absurd e b1))
      (by
        intro p _
        exact ⟨by decide, by decide, by decide⟩)
      (by
        intro p hp q hq
        have hs := folderFromGitURL_no_slash w.lowerTable htable p.1
        have hdd : (folderFromGitURL w.lowerTable p.1).data ≠ dotdot := by
          intro e
          apply (hstores p hp).1
          show String.mk (folderFromGitURL w.lowerTable p.1).data = _
          rw [e]
          rfl
        have hf := no_slash_props _ hs hdd
        exact Join_below _ _ hf.1 hf.2 hq.2.2 (fun _ => hq.2.1))
      (by
        intro p hp q children hq hch f hfc
        have hpl := (hstores p hp).2 q children hch f hfc
        obtain ⟨n1, _, _, n4, _⟩ := plainName_props f.Name hpl
        exact Join_props q f.Name hq.1 hq.2.1 hq.2.2 (no_slash_props _ n1 n4).2)
      h
  intro e he
  simp only [DockerBuilder.entries, h1, h3] at he
  rcases List.mem_cons.mp he with h5 | h5
  · subst h5
    show escapesRoot Dockerfile = false
    decide
  · exact h4 e h5

theorem getDockerContext_paths_below_root_witness :
    DockerBuilder.assembled.entries.all (fun e => !escapesRoot e.header.Name) = true :=
  List.all_eq_true.mpr fun e he => by
    simpa using getDockerContext_paths_below_root World.sample 2 DockerBuilder.oneStore
      DockerBuilder.assembled [70, 82, 79, 77, 10] ["a.txt", "conf"]
      (by
        intro c hc e
        have e1 : c = '/' := e
        subst e1
        exact absurd hc (by decide))
      (by
        intro filePath hf expanded hex
        have hcases : filePath = "a.txt" ∨ filePath = "conf" := by simpa using hf
        rcases hcases with h | h
        · subst h
          have h0 : expandHome World.sample "a.txt" = .ok "a.txt" := rfl
          rw [h0] at hex
          injection hex with hex
          subst hex
          exact ⟨by decide, by decide⟩
        · subst h
          have h0 : expandHome World.sample "conf" = .ok "conf" := rfl
          rw [h0] at hex
          injection hex with hex
          subst hex
          exact ⟨by decide, by decide⟩)
      (by
        intro p children hch f hfc
        by_cases hp : p = "conf"
        · subst hp
          have h0 : World.sample.ioReadDir "conf" = .ok [⟨"app.yml", false, 1⟩] := rfl
          rw [h0] at hch
          injection hch with hch
          subst hch
          have hf : f = ⟨"app.yml", false, 1⟩ := by simpa using hfc
          subst hf
          decide
        · have h0 : World.sample.ioReadDir p = .error notExist := by
            simp [World.sample, hp]
          rw [h0] at hch
          cases hch)
      (by
        intro p hp
        have hp1 : p = ("https://h/o/Repo.git", GitStore.mk BillyFS.readme) := by
          simpa [DockerBuilder.oneStore] using hp
        subst hp1
        refine ⟨by decide, ?_⟩
        intro q children hch f hfc
        by_cases hq : q = "."
        · subst hq
          have h0 : BillyFS.readme.ReadDir "." = .ok [⟨"README", false, 2⟩] := rfl
          rw [h0] at hch
          injection hch with hch
          subst hch
          have hf : f = ⟨"README", false, 2⟩ := by simpa using hfc
          subst hf
          decide
        · have h0 : BillyFS.readme.ReadDir q = .error notExist := by
            simp [BillyFS.readme, hq]
          rw [h0] at hch
          cases hch)
      rfl e he

/-! ## Theorems: the slice of the path -/

theorem expandHome_short (w : World) (filePath : String) (hlen : filePath.utf8ByteSize < 2) :
    expandHome w filePath = .error (.panic "slice bounds out of range") := by
  simp [expandHome, hlen]

theorem addLocalPaths_short (w : World) (db : DockerBuilder) (filePath : String)
    (rest : List String) (hlen : filePath.utf8ByteSize < 2) :
    addLocalPaths w db (filePath :: rest) = .error (.panic "slice bounds out of range") := by
  simp [addLocalPaths, addLocalPath, expandHome_short w filePath hlen]

theorem addLocalPaths_append_ok (w : World) (pre rest : List String)
    (db db1 : DockerBuilder) (h : addLocalPaths w db pre = .ok db1) :
    addLocalPaths w db (pre ++ rest) = addLocalPaths w db1 rest := by
  induction pre generalizing db with
  | nil =>
    simp only [addLocalPaths] at h
    injection h with h
    subst h
    rfl
  | cons filePath more ih =>
    simp only [addLocalPaths, List.cons_append] at h ⊢
    cases h1 : addLocalPath w db filePath with
    | error a => simp [h1] at h
    | ok db2 =>
      simp only [h1] at h ⊢
      exact ih db2 h

/-- C11 fails on the code: when a listed local path has fewer than two bytes
(the empty string, or a path of one character such as `.`), and the Dockerfile
entry and the paths listed before it were added without error, the slice
`filePath[:2]` is out of range and `getDockerContextFromFilesystem` ends in a
run-time panic: it neither succeeds nor returns an error. -/
theorem getDockerContext_short_path_panics (w : World) (fuel : Nat)
    (db db1 : DockerBuilder) (dockerfile : Bytes) (ctx : Context)
    (pre rest : List String) (filePath : String)
    (hlen : filePath.utf8ByteSize < 2)
    (hadd : NewContext.AddFile w Dockerfile dockerfile = .ok ctx)
    (hpre : addLocalPaths w { db with context := some ctx } pre = .ok db1) :
    db.getDockerContextFromFilesystem w fuel dockerfile (pre ++ filePath :: rest)
      = .error (.panic "slice bounds out of range") := by
  unfold DockerBuilder.getDockerContextFromFilesystem
  simp only [hadd]
  rw [addLocalPaths_append_ok w pre (filePath :: rest) _ db1 hpre,
    addLocalPaths_short w db1 filePath rest hlen]

theorem getDockerContext_short_path_panics_witness :
    DockerBuilder.noStores.getDockerContextFromFilesystem World.sample 0
        [70, 82, 79, 77, 10] (["a.txt"] ++ "." :: [])
      = .error (.panic "slice bounds out of range") :=
  getDockerContext_short_path_panics World.sample 0 DockerBuilder.noStores
    { DockerBuilder.noStores with
      context := some ⟨[⟨⟨"Dockerfile", 0o600, 5, 0⟩, [70, 82, 79, 77, 10]⟩,
        ⟨⟨"a.txt", 0o600, 1, 0⟩, [97]⟩], false⟩ }
    [70, 82, 79, 77, 10] ⟨[⟨⟨"Dockerfile", 0o600, 5, 0⟩, [70, 82, 79, 77, 10]⟩], false⟩
    ["a.txt"] [] "." (by decide) rfl rfl

end Dmux
